import Mathlib

/-!
# Verification of the insta-flips craft-margin engine

A shallow embedding of the price-resolution and margin-computation engine of
the repository (one Express server file).  JavaScript numbers are modelled as
rationals (`ℚ`), `Math.round` as `⌊q + 1/2⌋`, JSON values as the inductive
`JSVal`, the sqlite tables and the in-memory caches as association lists
threaded through every function, and the upstream HTTP providers (bazaar
feed, recipe API, auction API) as immutable finite tables in an environment
record.  `getItemPrice` takes an explicit fuel argument: result `none` means
the fuel ran out, `some` means the JavaScript function returned.

The one JS `NaN` that escapes into a data structure (the structured-record
fallback of `parseRecipeSlots` pushes `parseInt` of a non-numeric count
without an `isNaN` guard) is modelled as `Option ℚ` with `none` standing for
`NaN`; everywhere else counts are `some q`.
-/

/-- JSON values as delivered by the upstream APIs and stored in the tables.
Object fields keep insertion order, as `Object.entries` does. -/
inductive JSVal where
  | null : JSVal
  | bool : Bool → JSVal
  | num : ℚ → JSVal
  | str : String → JSVal
  | obj : List (String × JSVal) → JSVal

/-- JavaScript truthiness for the modelled values (`if (v)`). -/
def jsTruthy : JSVal → Bool
  | .null => false
  | .bool b => b
  | .num q => decide (q ≠ 0)
  | .str s => decide (s ≠ "")
  | .obj _ => true

/-- `Math.round`: round half toward positive infinity. -/
def jsRound (q : ℚ) : ℤ := ⌊q + 1/2⌋

/-- `Number(x).toFixed(2)` read back with `Number(...)`: round to two
decimals, half toward positive infinity (ties pick the larger candidate). -/
def toFixed2 (q : ℚ) : ℚ := (jsRound (q * 100) : ℚ) / 100

/-- `String.prototype.toUpperCase` restricted to ASCII, which is all the
item identifiers use. -/
def jsToUpper (s : String) : String := ⟨s.data.map Char.toUpper⟩

/-- Characters are dropped from both ends by `String.prototype.trim`. -/
def trimChars (l : List Char) : List Char :=
  ((l.dropWhile Char.isWhitespace).reverse.dropWhile Char.isWhitespace).reverse

/-- `String.prototype.trim`. -/
def jsTrim (s : String) : String := ⟨trimChars s.data⟩

/-- `String.prototype.split(sep)` for a one-character separator, on the
underlying character list: every occurrence splits, empty pieces kept. -/
def splitChar (sep : Char) : List Char → List (List Char)
  | [] => [[]]
  | c :: rest =>
    match splitChar sep rest with
    | [] => [[c]]
    | g :: gs => if c = sep then [] :: g :: gs else (c :: g) :: gs

/-- `s.split(":")` and friends. -/
def jsSplit (s : String) (sep : Char) : List String :=
  (splitChar sep s.data).map (fun l => ⟨l⟩)

/-- Value of a list of decimal digits. -/
def digitsToNat (l : List Char) : ℕ :=
  l.foldl (fun a c => 10 * a + (c.toNat - 48)) 0

/-- Leading-digit prefix of a character list; `none` when there is none. -/
def digitsPrefix (l : List Char) : Option ℕ :=
  match l.takeWhile Char.isDigit with
  | [] => none
  | ds => some (digitsToNat ds)

/-- `parseInt(s, 10)`: skip leading whitespace, optional sign, then read the
leading run of decimal digits; `none` models `NaN`. -/
def parseIntStr (s : String) : Option ℤ :=
  match trimChars s.data with
  | '-' :: rest => (digitsPrefix rest).map (fun n => -(n : ℤ))
  | '+' :: rest => (digitsPrefix rest).map (fun n => (n : ℤ))
  | l => (digitsPrefix l).map (fun n => (n : ℤ))

/-- `parseInt(v, 10)` on a JSON value: strings are parsed, numbers are
truncated toward zero (JS stringifies then reparses; equal on the values the
feed produces), everything else is `NaN`. -/
def parseIntVal : JSVal → Option ℤ
  | .str s => parseIntStr s
  | .num q => some (if 0 ≤ q then ⌊q⌋ else ⌈q⌉)
  | _ => none

/-- Association-list read (`db.get` / property access): first binding wins. -/
def aget {α : Type} (l : List (String × α)) (k : String) : Option α :=
  (l.find? (fun p => p.1 = k)).map (fun p => p.2)

/-- Association-list upsert (`INSERT ... ON CONFLICT ... DO UPDATE`):
one row per key. -/
def aput {α : Type} (l : List (String × α)) (k : String) (v : α) :
    List (String × α) :=
  (k, v) :: l.filter (fun p => ¬ p.1 = k)

/-- Price source tags as stored in the `prices.source` column.  The spec's
abstract names map as market ≙ `bazaar`, auctionLow ≙ `lbin`,
crafted ≙ `craft`, fallback ≙ `easy`. -/
inductive Source where
  | bazaar : Source
  | lbin : Source
  | craft : Source
  | easy : Source
deriving DecidableEq, Repr

/-- A row of the `prices` table. -/
structure PriceRow where
  price : ℤ
  source : Source
  layers : ℕ
  updatedAt : ℕ
deriving DecidableEq, Repr

/-- The `{price, source, layers}` record `getItemPrice` returns. -/
structure PriceInfo where
  price : ℤ
  source : Source
  layers : ℕ
deriving DecidableEq, Repr

/-- One entry of the in-memory `bazaarPrices` snapshot. -/
structure BzEntry where
  buy : Option ℚ
  sell : Option ℚ
  updatedAt : ℕ
deriving DecidableEq, Repr

/-- One entry of the in-memory `lbinCache`. -/
structure LbinEntry where
  price : ℚ
  updatedAt : ℕ
deriving DecidableEq, Repr

/-- A row of the `craft_margins` table. -/
structure MarginRow where
  costPerUnit : ℤ
  sellPrice : ℤ
  profit : ℤ
  marginPercent : ℚ
  updatedAt : ℕ
deriving DecidableEq, Repr

/-- An active auction listing; each field is the corresponding property of
the JSON object (`none` = property absent). -/
structure Listing where
  startingBid : Option JSVal := none
  price : Option JSVal := none
  bin : Option JSVal := none
  bid : Option JSVal := none

/-- A parsed recipe ingredient.  `count = none` models `NaN`. -/
structure Ingredient where
  item : String
  count : Option ℚ
deriving DecidableEq, Repr

/-- Result of `parseRecipeSlots`. -/
structure Parsed where
  ingredients : List Ingredient
  outputCount : ℤ
deriving DecidableEq, Repr

/-- The immutable world one resolution runs against: the wall clock, the
current `bazaarPrices` snapshot, the two HTTP providers as finite tables
(`none` lookup covers network failure, non-OK status, empty and malformed
bodies alike), and the static fallback table.

`easyItems` is referenced by `getItemPrice` but defined in a source file not
in the repository snapshot.  Modelled from the spec: a fixed item→price
table for always-cheap base materials, contents unknown, hence a field of
the environment. -/
structure Env where
  now : ℕ
  bazaar : List (String × BzEntry)
  recipeProv : List (String × JSVal)
  auctionProv : List (String × List Listing)
  easyItems : List (String × ℚ)

/-- The mutable stores: the three sqlite tables and the in-memory
`lbinCache`. -/
structure St where
  prices : List (String × PriceRow)
  recipes : List (String × JSVal)
  lbin : List (String × LbinEntry)
  margins : List (String × MarginRow)

/-- The empty store. -/
def St.empty : St := ⟨[], [], [], []⟩

/-- `PRICE_CACHE_TTL = 1000 * 60 * 1`. -/
def PRICE_CACHE_TTL : ℕ := 1000 * 60 * 1

/-- Does a key match the 3×3 grid slot pattern `/^[A-C][1-3]$/`? -/
def isSlotKey (k : String) : Bool :=
  match k.data with
  | [r, c] => ('A' ≤ r ∧ r ≤ 'C') ∧ ('1' ≤ c ∧ c ≤ '3')
  | _ => false

/-- The count taken from `parts[1] ? parseInt(parts[1], 10) : 1` with the
`Number.isNaN(cnt) ? 1 : cnt` guard of the direct string branch. -/
def strSlotCount (parts : List String) : ℚ :=
  match parts.get? 1 with
  | some p => if p = "" then 1 else ((parseIntStr p).getD 1 : ℤ)
  | none => 1

/-- The count of the structured-record fallback branch:
`parts[1] ? parseInt(parts[1], 10) : 1` with NO `isNaN` guard, so a
non-numeric count really is `NaN` (`none`). -/
def fallbackSlotCount (parts : List String) : Option ℚ :=
  match parts.get? 1 with
  | some p => if p = "" then some 1 else (parseIntStr p).map (fun n => (n : ℚ))
  | none => some 1

/-- The `count` property of a structured slot record, `v.count ?? 1`.
Count properties that are present but neither numbers nor null are outside
the model (the JS would carry the raw value into later arithmetic). -/
def objSlotCount (c : Option JSVal) : Option ℚ :=
  match c with
  | some (.num q) => some q
  | _ => some 1

/-- The structured-record fallback: `Object.values(v)[0]`, pushed when it is
a string, split on `":"`, with neither `trim` nor an empty-id check. -/
def objFallbackSlot (fields : List (String × JSVal)) : Option Ingredient :=
  match fields.head? with
  | some (_, .str s) =>
    let parts := jsSplit s ':'
    some ⟨parts.headD "", fallbackSlotCount parts⟩
  | _ => none

/-- Parse one slot value; `none` means the slot is skipped (`continue`). -/
def slotIngredient (v : JSVal) : Option Ingredient :=
  if jsTruthy v = false then none
  else
    match v with
    | .str s =>
      let parts := jsSplit s ':'
      let id := jsTrim (parts.headD "")
      if id = "" then none else some ⟨id, some (strSlotCount parts)⟩
    | .obj fields =>
      match aget fields "item" with
      | some (.str it) =>
        if it = "" then objFallbackSlot fields
        else some ⟨it, objSlotCount (aget fields "count")⟩
      | _ => objFallbackSlot fields
    | _ => none

/-- The output multiplier: an explicit `count` property whose `parseInt` is
positive, else 1. -/
def parseOutputCount (fields : List (String × JSVal)) : ℤ :=
  match aget fields "count" with
  | none => 1
  | some .null => 1
  | some v =>
    match parseIntVal v with
    | some k => if 0 < k then k else 1
    | none => 1

/-- `parseRecipeSlots`: scan the object's entries in order, keep only keys
matching the grid pattern, parse each slot, skip malformed ones; the output
count comes from the `count` property.  Non-objects have no entries and no
`count` property. -/
def parseRecipeSlots (recipe : JSVal) : Parsed :=
  match recipe with
  | .obj fields =>
    ⟨fields.filterMap (fun p => if isSlotKey p.1 then slotIngredient p.2 else none),
     parseOutputCount fields⟩
  | _ => ⟨[], 1⟩

/-- `fetchAndStoreRecipe`: ask the recipe provider; on success upsert the
`recipes` row and return the JSON, on any failure return null. -/
def fetchAndStoreRecipe (env : Env) (itemName : String) (st : St) :
    Option JSVal × St :=
  match aget env.recipeProv itemName with
  | none => (none, st)
  | some j => (some j, { st with recipes := aput st.recipes itemName j })

/-- `getRecipeCached`: the stored row wins, else fetch and store.  (Stored
rows are valid JSON by construction, so the `JSON.parse` catch branch is
unreachable in the model.) -/
def getRecipeCached (env : Env) (itemName : String) (st : St) :
    Option JSVal × St :=
  match aget st.recipes itemName with
  | some j => (some j, st)
  | none => fetchAndStoreRecipe env itemName st

/-- `a.startingBid ?? a.price ?? a.bin ?? a.bid ?? null`: the first
non-nullish of the four listing fields. -/
def listingBidField (a : Listing) : Option JSVal :=
  match a.startingBid with
  | some .null | none =>
    match a.price with
    | some .null | none =>
      match a.bin with
      | some .null | none =>
        match a.bid with
        | some .null | none => none
        | some v => some v
      | some v => some v
    | some v => some v
  | some v => some v

/-- The numeric price a listing contributes, if any: the picked field must
be a number (`typeof p === "number"`). -/
def listingPrice (a : Listing) : Option ℚ :=
  match listingBidField a with
  | some (.num q) => some q
  | _ => none

/-- The running-minimum loop of `fetchLBIN` (`min` starts at `Infinity`,
strict `<` update); `none` iff no listing had a numeric price. -/
def lbinMin (arr : List Listing) : Option ℚ :=
  arr.foldl
    (fun acc a =>
      match listingPrice a with
      | some q =>
        match acc with
        | none => some q
        | some m => if q < m then some q else some m
      | none => acc)
    none

/-- `fetchLBIN`: query the auction provider; on ≥ 1 valid listing take the
minimum, cache it in `lbinCache` unrounded AND upsert the rounded value into
the `prices` table with `source = 'lbin', layers = 0`, then return the
unrounded minimum. -/
def fetchLBIN (env : Env) (itemName : String) (st : St) : Option ℚ × St :=
  match aget env.auctionProv itemName with
  | none => (none, st)
  | some arr =>
    if arr.isEmpty then (none, st)
    else
      match lbinMin arr with
      | none => (none, st)
      | some m =>
        (some m,
          { st with
            lbin := aput st.lbin itemName ⟨m, env.now⟩,
            prices :=
              aput st.prices itemName ⟨jsRound m, Source.lbin, 0, env.now⟩ })

/-- Resolution step 1 condition: a fresh `prices` row within the TTL, and
what it returns. -/
def cachedFresh (env : Env) (st : St) (name : String) : Option PriceInfo :=
  match aget st.prices name with
  | some pr =>
    if env.now - pr.updatedAt < PRICE_CACHE_TTL then
      some ⟨pr.price, pr.source, pr.layers⟩
    else none
  | none => none

/-- Resolution step 2 condition:
`bazaarPrices[name] && bazaarPrices[name].buy != null`. -/
def bzBuy (env : Env) (name : String) : Option ℚ :=
  (aget env.bazaar name).bind (fun e => e.buy)

/-- Resolution step 3 condition: an unexpired in-memory `lbinCache` entry. -/
def lbinCacheFresh (env : Env) (st : St) (name : String) : Option ℚ :=
  match aget st.lbin name with
  | some cl =>
    if env.now - cl.updatedAt < PRICE_CACHE_TTL then some cl.price else none
  | none => none

/-- `ing.count || 1`: `NaN` and 0 (and a missing count) become 1. -/
def effCount (c : Option ℚ) : ℚ :=
  match c with
  | none => 1
  | some q => if q = 0 then 1 else q

/-- The final fallback of `getItemPrice`: the static `easyItems` table,
persisted with `source = 'easy', layers = 0`; absent there means
unpriceable, `null`. -/
def easyFallback (env : Env) (name : String) (visited : List String)
    (st : St) : Option (Option PriceInfo × St × List String) :=
  match aget env.easyItems name with
  | some q =>
    let p := jsRound q
    some (some ⟨p, .easy, 0⟩,
      { st with prices := aput st.prices name ⟨p, .easy, 0, env.now⟩ },
      visited)
  | none => some (none, st, visited)

/-- The ingredient loop of the recursive-craft branch: resolve each
ingredient with the SHARED visited set, accumulate
`total += sub.price * (ing.count || 1)` and
`maxLayer = max maxLayer (sub.layers + 1)`; the first unpriceable
ingredient fails the whole loop (`total = null; break`). -/
def priceIngredients
    (resolve : String → List String → St →
      Option (Option PriceInfo × St × List String)) :
    List Ingredient → ℚ → ℕ → List String → St →
      Option (Option (ℚ × ℕ) × St × List String)
  | [], total, maxLayer, visited, st => some (some (total, maxLayer), st, visited)
  | ing :: rest, total, maxLayer, visited, st =>
    match resolve (jsToUpper ing.item) visited st with
    | none => none
    | some (none, st', visited') => some (none, st', visited')
    | some (some sub, st', visited') =>
      priceIngredients resolve rest (total + (sub.price : ℚ) * effCount ing.count)
        (max maxLayer (sub.layers + 1)) visited' st'

/-- `getItemPrice(itemName, visited)`.  Guards: falsy name, then the cycle
check against the shared visited set, then `visited.add(name)`.  Sources in
order: fresh `prices` row, bazaar buy quote, fresh `lbinCache` entry, live
`fetchLBIN`, recursive craft cost, `easyItems`; first success wins, else
null.  The outer `Option` is the fuel: `none` = out of fuel. -/
def getItemPrice (env : Env) :
    ℕ → String → List String → St → Option (Option PriceInfo × St × List String)
  | 0, _, _, _ => none
  | fuel + 1, itemName, visited, st =>
    if itemName = "" then some (none, st, visited)
    else
      let name := jsToUpper itemName
      if name ∈ visited then some (none, st, visited)
      else
        let visited := name :: visited
        match cachedFresh env st name with
        | some info => some (some info, st, visited)
        | none =>
          match bzBuy env name with
          | some buy =>
            let p := jsRound buy
            some (some ⟨p, .bazaar, 0⟩,
              { st with prices := aput st.prices name ⟨p, .bazaar, 0, env.now⟩ },
              visited)
          | none =>
            match lbinCacheFresh env st name with
            | some q =>
              let p := jsRound q
              some (some ⟨p, .lbin, 0⟩,
                { st with prices := aput st.prices name ⟨p, .lbin, 0, env.now⟩ },
                visited)
            | none =>
              match fetchLBIN env name st with
              | (some m, st') => some (some ⟨jsRound m, .lbin, 0⟩, st', visited)
              | (none, st') =>
                match getRecipeCached env name st' with
                | (some recipe, st₂) =>
                  if jsTruthy recipe then
                    let parsed := parseRecipeSlots recipe
                    if parsed.ingredients.isEmpty then
                      easyFallback env name visited st₂
                    else
                      match priceIngredients (fun n v s => getItemPrice env fuel n v s)
                          parsed.ingredients 0 0 visited st₂ with
                      | none => none
                      | some (none, st₃, vis₃) => easyFallback env name vis₃ st₃
                      | some (some (total, maxLayer), st₃, vis₃) =>
                        let oc : ℤ :=
                          if parsed.outputCount = 0 then 1 else parsed.outputCount
                        let perUnit := jsRound (total / (oc : ℚ))
                        some (some ⟨perUnit, .craft, maxLayer⟩,
                          { st₃ with
                            prices :=
                              aput st₃.prices name
                                ⟨perUnit, .craft, maxLayer, env.now⟩ },
                          vis₃)
                  else easyFallback env name visited st₂
                | (none, st₂) => easyFallback env name visited st₂

/-- One line of the ingredient breakdown `computeMarginForItem` returns. -/
structure BreakdownEntry where
  item : String
  count : ℚ
  unitPrice : ℤ
  source : Source
  layers : ℕ
deriving DecidableEq, Repr

/-- What `computeMarginForItem` returns on success. -/
structure MarginResult where
  item : String
  costPerUnit : ℤ
  sellPrice : ℤ
  profit : ℤ
  marginPercent : ℚ
  breakdown : List BreakdownEntry
  craftLayers : ℕ
deriving DecidableEq, Repr

/-- The ingredient loop of `computeMarginForItem`: each ingredient is
resolved with a FRESH empty visited set (`new Set()`), the breakdown entry
records the rounded unit price, and `maxLayers` tracks `max` of the raw
`sub.layers` (no `+ 1` here); the first unpriceable ingredient aborts with
`null`. -/
def marginIngredients
    (resolve : String → List String → St →
      Option (Option PriceInfo × St × List String)) :
    List Ingredient → ℚ → List BreakdownEntry → ℕ → St →
      Option (Option (ℚ × List BreakdownEntry × ℕ) × St)
  | [], total, bd, maxLayers, st => some (some (total, bd, maxLayers), st)
  | ing :: rest, total, bd, maxLayers, st =>
    let ingName := jsToUpper ing.item
    let ingCount := effCount ing.count
    match resolve ingName [] st with
    | none => none
    | some (none, st', _) => some (none, st')
    | some (some sub, st', _) =>
      marginIngredients resolve rest (total + (sub.price : ℚ) * ingCount)
        (bd ++ [⟨ingName, ingCount, jsRound (sub.price : ℚ), sub.source, sub.layers⟩])
        (max maxLayers sub.layers) st'

/-- `computeMarginForItem(itemName)`.  NOTE: `itemName` is used verbatim
(not uppercased) for the bazaar lookup, the recipe fetch and the persisted
margin row; only the ingredient resolution canonicalizes.  Fails (returns
null, persisting no margin row) when the item has no bazaar sell quote, no
recipe, an ingredient-free recipe, or any unpriceable ingredient. -/
def computeMarginForItem (env : Env) (fuel : ℕ) (itemName : String) (st : St) :
    Option (Option MarginResult × St) :=
  match aget env.bazaar itemName with
  | none => some (none, st)
  | some bz =>
    match bz.sell with
    | none => some (none, st)
    | some sellQ =>
      match getRecipeCached env itemName st with
      | (none, st₁) => some (none, st₁)
      | (some recipe, st₁) =>
        if jsTruthy recipe = false then some (none, st₁)
        else
          let parsed := parseRecipeSlots recipe
          if parsed.ingredients.isEmpty then some (none, st₁)
          else
            match marginIngredients (fun n v s => getItemPrice env fuel n v s)
                parsed.ingredients 0 [] 0 st₁ with
            | none => none
            | some (none, st₂) => some (none, st₂)
            | some (some (total, bd, maxLayers), st₂) =>
              let oc : ℤ := if parsed.outputCount = 0 then 1 else parsed.outputCount
              let perOutput := jsRound (total / (oc : ℚ))
              let sell := jsRound sellQ
              let profit := jsRound ((sell : ℚ) - (perOutput : ℚ))
              let marginPercent : ℚ :=
                if 0 < perOutput then toFixed2 ((profit : ℚ) / (perOutput : ℚ) * 100)
                else 0
              some (some ⟨itemName, perOutput, sell, profit, marginPercent, bd, maxLayers⟩,
                { st₂ with
                  margins :=
                    aput st₂.margins itemName
                      ⟨perOutput, sell, profit, marginPercent, env.now⟩ })

/-- The projection of a margin row the `/item-price/:item` route selects. -/
structure MarginView where
  costPerUnit : ℤ
  sellPrice : ℤ
  profit : ℤ
  marginPercent : ℚ
deriving DecidableEq, Repr

/-- The response of `GET /item-price/:item`. -/
structure ItemPriceResp where
  item : String
  recipe : Option JSVal
  priceRow : Option PriceRow
  margin : Option MarginView

/-- The `GET /item-price/:item` handler: uppercase the path parameter, read
the three tables by that key, answer with each field independently possibly
absent.  It resolves nothing and writes nothing. -/
def itemPriceRoute (st : St) (item : String) : ItemPriceResp :=
  let u := jsToUpper item
  { item := u
    recipe := aget st.recipes u
    priceRow := aget st.prices u
    margin := (aget st.margins u).map
      (fun m => ⟨m.costPerUnit, m.sellPrice, m.profit, m.marginPercent⟩) }

/-- The set of item names that can possibly carry a recipe: keys already in
the `recipes` table plus keys the recipe provider knows.  Resolution can
only recurse through items in this set, and no run ever enlarges it — that
is what bounds the recursion depth. -/
def recipeKeysU (env : Env) (st : St) : Finset String :=
  (st.recipes.map Prod.fst).toFinset ∪ (env.recipeProv.map Prod.fst).toFinset

/-- What one successful resolver call preserves: the `craft_margins` table,
monotonicity of the shared visited set, the `prices` rows of every
already-visited key, and the recipe-key universe never grows. -/
def StoreInv (env : Env) (v : List String) (s : St) (s' : St)
    (v' : List String) : Prop :=
  s'.margins = s.margins ∧ v ⊆ v' ∧
    (∀ k ∈ v, aget s'.prices k = aget s.prices k) ∧
    recipeKeysU env s' ⊆ recipeKeysU env s

/-- Environment for the witnesses: one bazaar item `A` with buy quote 10. -/
def envBz : Env := ⟨100000, [("A", ⟨some 10, some 100, 0⟩)], [], [], []⟩

/-- A provider-free environment sharing `envBz`'s clock. -/
def envNoProv : Env := ⟨100000, [], [], [], []⟩

/-- A store holding one fresh crafted price row for `A` (age 1ms). -/
def stCachedA : St := ⟨[("A", ⟨5, .craft, 2, 99999⟩)], [], [], []⟩

/-- The pure two-cycle world: `A`'s recipe needs `B`, `B`'s needs `A`, and
no other source can price either. -/
def envCyc : Env :=
  ⟨100000, [],
    [("A", .obj [("A1", .str "B:1")]), ("B", .obj [("A1", .str "A:1")])], [], []⟩

/-- The same cyclic recipe graph, but `B` has a bazaar buy quote of 7. -/
def envCycBz : Env :=
  ⟨100000, [("B", ⟨some 7, none, 0⟩)],
    [("A", .obj [("A1", .str "B:1")]), ("B", .obj [("A1", .str "A:1")])], [], []⟩

/-- A world where the only price source for `A` is one active auction
listing with `startingBid` 42. -/
def envLive : Env :=
  ⟨100000, [], [], [("A", [⟨some (.num 42), none, none, none⟩])], []⟩

/-- A world where `X`'s recipe slot reads `"Y:0"` — an explicit count of
zero — and `Y` has a bazaar buy quote of 10. -/
def envZC : Env :=
  ⟨100000, [("Y", ⟨some 10, none, 0⟩)], [("X", .obj [("A1", .str "Y:0")])], [], []⟩

/-- The spec's worked example: recipe `{A1:"COBBLESTONE:2", B1:"STICK:1",
count:"1"}` with COBBLESTONE at 10 and STICK at 5 on the bazaar. -/
def envSpecEx : Env :=
  ⟨100000,
    [("ITEM", ⟨none, some 100, 0⟩), ("COBBLESTONE", ⟨some 10, none, 0⟩),
     ("STICK", ⟨some 5, none, 0⟩)],
    [("ITEM", .obj [("A1", .str "COBBLESTONE:2"), ("B1", .str "STICK:1"),
      ("count", .str "1")])],
    [], []⟩

/-- The spec example's recipe object. -/
def recipeSpecEx : JSVal :=
  .obj [("A1", .str "COBBLESTONE:2"), ("B1", .str "STICK:1"), ("count", .str "1")]

/-- Store after the example's recipe fetch. -/
def stSpecEx1 : St := ⟨[], [("ITEM", recipeSpecEx)], [], []⟩

/-- The margin record the example computes: cost 25, sell 100, profit 75,
margin 300.00%. -/
def rSpecEx : MarginResult :=
  ⟨"ITEM", 25, 100, 75, 300,
    [⟨"COBBLESTONE", 2, 10, .bazaar, 0⟩, ⟨"STICK", 1, 5, .bazaar, 0⟩], 0⟩

/-- Final store of the example margin computation. -/
def stSpecExF : St :=
  ⟨[("STICK", ⟨5, .bazaar, 0, 100000⟩), ("COBBLESTONE", ⟨10, .bazaar, 0, 100000⟩)],
   [("ITEM", recipeSpecEx)], [], [("ITEM", ⟨25, 100, 75, 300, 100000⟩)]⟩

/-- A world where the bazaar keys an item under the lowercase name `ab`,
with one ingredient `X` priced at 10 and a sell quote of 100. -/
def envLower : Env :=
  ⟨100000, [("ab", ⟨none, some 100, 0⟩), ("X", ⟨some 10, none, 0⟩)],
    [("ab", .obj [("A1", .str "X:1")])], [], []⟩

/-- The margin record computed for the lowercase `ab`. -/
def rLower : MarginResult := ⟨"ab", 10, 100, 90, 900, [⟨"X", 1, 10, .bazaar, 0⟩], 0⟩

/-- The store after that computation: the margin row sits under `ab`. -/
def stLowerF : St :=
  ⟨[("X", ⟨10, .bazaar, 0, 100000⟩)], [("ab", .obj [("A1", .str "X:1")])], [],
   [("ab", ⟨10, 100, 90, 900, 100000⟩)]⟩

/-! ## Arithmetic helper lemmas -/

theorem jsRound_eq {q : ℚ} {z : ℤ} (h1 : (z : ℚ) ≤ q + 1/2) (h2 : q + 1/2 < z + 1) :
    jsRound q = z := by
  unfold jsRound
  exact Int.floor_eq_iff.mpr ⟨h1, h2⟩

theorem jsRound_intCast (n : ℤ) : jsRound (n : ℚ) = n :=
  jsRound_eq (by norm_num) (by norm_num)

theorem jsRound_natCast (n : ℕ) : jsRound (n : ℚ) = n := by
  rw [show ((n : ℚ)) = ((n : ℤ) : ℚ) by push_cast; ring, jsRound_intCast]

/-! ## String helper lemmas -/

theorem charToUpper_idem (c : Char) : c.toUpper.toUpper = c.toUpper := by
  unfold Char.toUpper
  by_cases h : c.toNat ≥ 97 ∧ c.toNat ≤ 122
  · rw [if_pos h]
    obtain ⟨h1, h2⟩ := h
    have hn : c.toNat = c.toNat := rfl
    set n := c.toNat with hdef
    clear hdef hn
    interval_cases n <;> decide
  · rw [if_neg h, if_neg h]

theorem jsToUpper_idem (s : String) : jsToUpper (jsToUpper s) = jsToUpper s := by
  unfold jsToUpper
  simp only [List.map_map]
  exact congrArg String.mk (List.map_congr_left (fun c _ => charToUpper_idem c))

theorem jsToUpper_eq_empty_iff (s : String) : jsToUpper s = "" ↔ s = "" := by
  unfold jsToUpper
  constructor
  · intro h
    have : s.data.map Char.toUpper = "".data := congrArg String.data h
    simp only [String.data] at this ⊢
    rcases s with ⟨l⟩
    simp only at this ⊢
    rcases l with _ | ⟨c, l⟩
    · rfl
    · simp at this
  · intro h
    subst h
    rfl

/-! ## Association-list lemmas -/

theorem aget_nil {α : Type} (k : String) : aget ([] : List (String × α)) k = none := rfl

theorem aget_cons_self {α : Type} (k : String) (v : α) (l : List (String × α)) :
    aget ((k, v) :: l) k = some v := by
  simp [aget, List.find?]

theorem aget_cons_ne {α : Type} {k k' : String} (v : α) (l : List (String × α))
    (h : ¬ k = k') : aget ((k, v) :: l) k' = aget l k' := by
  simp [aget, List.find?, h]

theorem aget_aput_self {α : Type} (l : List (String × α)) (k : String) (v : α) :
    aget (aput l k v) k = some v := by
  simp [aput, aget_cons_self]

theorem aget_filter_ne {α : Type} (l : List (String × α)) {k k' : String}
    (h : ¬ k = k') :
    aget (l.filter (fun p => ¬ p.1 = k)) k' = aget l k' := by
  induction l with
  | nil => rfl
  | cons p rest ih =>
    rcases p with ⟨pk, pv⟩
    by_cases hpk : pk = k
    · subst hpk
      have : decide ¬ (pk, pv).1 = pk = false := by simp
      rw [List.filter_cons, this, if_neg (by simp), aget_cons_ne pv rest h]
      exact ih
    · have : decide ¬ (pk, pv).1 = k = true := by simpa using hpk
      rw [List.filter_cons, this, if_pos rfl]
      by_cases hk' : pk = k'
      · subst hk'
        rw [aget_cons_self, aget_cons_self]
      · rw [aget_cons_ne pv _ hk', aget_cons_ne pv _ hk']
        exact ih

theorem aget_aput_ne {α : Type} (l : List (String × α)) {k k' : String} (v : α)
    (h : ¬ k = k') : aget (aput l k v) k' = aget l k' := by
  rw [aput, aget_cons_ne v _ h]
  exact aget_filter_ne l h

/-! ## Small frame lemmas for the store helpers -/

theorem fetchAndStoreRecipe_margins (env : Env) (n : String) (st : St) :
    ((fetchAndStoreRecipe env n st).2).margins = st.margins := by
  unfold fetchAndStoreRecipe
  cases aget env.recipeProv n <;> rfl

theorem fetchAndStoreRecipe_prices (env : Env) (n : String) (st : St) :
    ((fetchAndStoreRecipe env n st).2).prices = st.prices := by
  unfold fetchAndStoreRecipe
  cases aget env.recipeProv n <;> rfl

theorem getRecipeCached_margins (env : Env) (n : String) (st : St) :
    ((getRecipeCached env n st).2).margins = st.margins := by
  unfold getRecipeCached
  cases aget st.recipes n
  · exact fetchAndStoreRecipe_margins env n st
  · rfl

theorem getRecipeCached_prices (env : Env) (n : String) (st : St) :
    ((getRecipeCached env n st).2).prices = st.prices := by
  unfold getRecipeCached
  cases aget st.recipes n
  · exact fetchAndStoreRecipe_prices env n st
  · rfl

theorem fetchLBIN_margins (env : Env) (n : String) (st : St) :
    ((fetchLBIN env n st).2).margins = st.margins := by
  unfold fetchLBIN
  cases aget env.auctionProv n with
  | none => rfl
  | some arr =>
    by_cases h : arr.isEmpty
    · simp [h]
    · simp only [h, if_false, Bool.false_eq_true]
      cases lbinMin arr <;> rfl

theorem fetchLBIN_prices_ne (env : Env) (n k : String) (st : St) (h : ¬ n = k) :
    aget ((fetchLBIN env n st).2).prices k = aget st.prices k := by
  unfold fetchLBIN
  cases aget env.auctionProv n with
  | none => rfl
  | some arr =>
    by_cases he : arr.isEmpty
    · simp [he]
    · simp only [he, if_false, Bool.false_eq_true]
      cases lbinMin arr with
      | none => rfl
      | some m => exact aget_aput_ne _ _ h

theorem fetchLBIN_none_state (env : Env) (n : String) (st : St) {st' : St}
    (h : fetchLBIN env n st = (none, st')) : st' = st := by
  unfold fetchLBIN at h
  cases hp : aget env.auctionProv n with
  | none => rw [hp] at h; exact (Prod.mk.injEq _ _ _ _ ▸ h).2.symm
  | some arr =>
    rw [hp] at h
    by_cases he : arr.isEmpty
    · simp only [he, if_true] at h
      exact (Prod.mk.injEq _ _ _ _ ▸ h).2.symm
    · simp only [he, if_false, Bool.false_eq_true] at h
      cases hm : lbinMin arr with
      | none => rw [hm] at h; exact (Prod.mk.injEq _ _ _ _ ▸ h).2.symm
      | some m => rw [hm] at h; simp at h

theorem easyFallback_isSome (env : Env) (n : String) (vis : List String) (st : St) :
    (easyFallback env n vis st).isSome := by
  unfold easyFallback
  cases aget env.easyItems n <;> rfl

theorem easyFallback_margins (env : Env) (n : String) (vis : List String) (st : St)
    {out : Option PriceInfo × St × List String}
    (h : easyFallback env n vis st = some out) : out.2.1.margins = st.margins := by
  unfold easyFallback at h
  cases he : aget env.easyItems n <;> rw [he] at h <;>
    exact (Option.some.injEq _ _ ▸ h) ▸ rfl

theorem easyFallback_visited (env : Env) (n : String) (vis : List String) (st : St)
    {out : Option PriceInfo × St × List String}
    (h : easyFallback env n vis st = some out) : out.2.2 = vis := by
  unfold easyFallback at h
  cases he : aget env.easyItems n <;> rw [he] at h <;>
    exact (Option.some.injEq _ _ ▸ h) ▸ rfl

theorem easyFallback_prices_ne (env : Env) (n k : String) (vis : List String) (st : St)
    (hk : ¬ n = k) :
    ∀ out, easyFallback env n vis st = some out →
      aget out.2.1.prices k = aget st.prices k := by
  unfold easyFallback
  cases aget env.easyItems n <;> intro out h <;> injection h with h2 <;> rw [← h2]
  exact aget_aput_ne _ _ hk

/-! ## Invariants of the ingredient loop and the resolver

`StoreInv v s s' v'` packages what one successful resolver call preserves:
the `craft_margins` table, monotonicity of the shared visited set, and the
`prices` rows of every already-visited key. -/

theorem mem_keys_of_aget {α : Type} {l : List (String × α)} {k : String} {v : α}
    (h : aget l k = some v) : k ∈ (l.map Prod.fst).toFinset := by
  induction l with
  | nil => exact absurd h (by simp [aget])
  | cons p rest ih =>
    rcases p with ⟨pk, pv⟩
    by_cases hpk : pk = k
    · subst hpk
      simp
    · rw [aget_cons_ne pv rest hpk] at h
      simp only [List.map_cons, List.toFinset_cons, Finset.mem_insert]
      exact Or.inr (ih h)

theorem aput_keys_subset {α : Type} (l : List (String × α)) (k : String) (v : α) :
    ((aput l k v).map Prod.fst).toFinset ⊆ insert k ((l.map Prod.fst).toFinset) := by
  intro x hx
  simp only [aput, List.map_cons, List.toFinset_cons, Finset.mem_insert] at hx
  rcases hx with h | hx
  · simp [h]
  · simp only [List.mem_toFinset, List.mem_map] at hx
    obtain ⟨q, hq, hqx⟩ := hx
    have hql := List.mem_of_mem_filter hq
    simp only [Finset.mem_insert, List.mem_toFinset, List.mem_map]
    exact Or.inr ⟨q, hql, hqx⟩

theorem fetchLBIN_recipes (env : Env) (n : String) (st : St) :
    ((fetchLBIN env n st).2).recipes = st.recipes := by
  unfold fetchLBIN
  cases aget env.auctionProv n with
  | none => rfl
  | some arr =>
    by_cases h : arr.isEmpty
    · simp [h]
    · simp only [h, Bool.false_eq_true, if_false]
      cases lbinMin arr <;> rfl

theorem easyFallback_recipes (env : Env) (n : String) (vis : List String) (st : St) :
    ∀ out, easyFallback env n vis st = some out → out.2.1.recipes = st.recipes := by
  unfold easyFallback
  cases aget env.easyItems n <;> intro out h <;> injection h with h2 <;> rw [← h2]

theorem getRecipeCached_keys_sub (env : Env) (n : String) (st : St) :
    recipeKeysU env ((getRecipeCached env n st).2) ⊆ recipeKeysU env st := by
  unfold getRecipeCached
  cases aget st.recipes n with
  | some j => exact Finset.Subset.refl _
  | none =>
    unfold fetchAndStoreRecipe
    cases hp : aget env.recipeProv n with
    | none => exact Finset.Subset.refl _
    | some j =>
      intro x hx
      simp only [recipeKeysU, Finset.mem_union] at hx ⊢
      rcases hx with hx | hx
      · have hk := aput_keys_subset st.recipes n j hx
        rcases Finset.mem_insert.mp hk with h | h
        · subst h
          exact Or.inr (mem_keys_of_aget hp)
        · exact Or.inl h
      · exact Or.inr hx

theorem getRecipeCached_some_mem (env : Env) (n : String) (st : St)
    {recipe : JSVal} {st₂ : St}
    (h : getRecipeCached env n st = (some recipe, st₂)) :
    n ∈ recipeKeysU env st := by
  unfold getRecipeCached at h
  cases hr : aget st.recipes n with
  | some j => exact Finset.mem_union_left _ (mem_keys_of_aget hr)
  | none =>
    rw [hr] at h
    unfold fetchAndStoreRecipe at h
    cases hp : aget env.recipeProv n with
    | none => rw [hp] at h; exact absurd h (by simp)
    | some j => exact Finset.mem_union_right _ (mem_keys_of_aget hp)

theorem StoreInv.refl (env : Env) (v : List String) (s : St) : StoreInv env v s s v :=
  ⟨rfl, fun _ hk => hk, fun _ _ => rfl, Finset.Subset.refl _⟩

theorem StoreInv.comp {env : Env} {v₁ v₂ v₃ : List String} {s₁ s₂ s₃ : St}
    (h₁ : StoreInv env v₁ s₁ s₂ v₂) (h₂ : StoreInv env v₂ s₂ s₃ v₃) :
    StoreInv env v₁ s₁ s₃ v₃ := by
  obtain ⟨hm₁, hv₁, hp₁, hk₁⟩ := h₁
  obtain ⟨hm₂, hv₂, hp₂, hk₂⟩ := h₂
  exact ⟨hm₂.trans hm₁, fun k hk => hv₂ (hv₁ hk),
    fun k hk => (hp₂ k (hv₁ hk)).trans (hp₁ k hk), hk₂.trans hk₁⟩

theorem priceIngredients_inv (env : Env)
    (resolve : String → List String → St →
      Option (Option PriceInfo × St × List String))
    (hres : ∀ n v s out, resolve n v s = some out → StoreInv env v s out.2.1 out.2.2) :
    ∀ ings tot ml vis st out,
      priceIngredients resolve ings tot ml vis st = some out →
      StoreInv env vis st out.2.1 out.2.2 := by
  intro ings
  induction ings with
  | nil =>
    intro tot ml vis st out h
    unfold priceIngredients at h
    injection h with h2
    rw [← h2]
    exact StoreInv.refl env vis st
  | cons ing rest ih =>
    intro tot ml vis st out h
    unfold priceIngredients at h
    cases hr : resolve (jsToUpper ing.item) vis st with
    | none => rw [hr] at h; exact absurd h (by simp)
    | some r1 =>
      rw [hr] at h
      rcases r1 with ⟨r, st', vis'⟩
      cases r with
      | none =>
        injection h with h2
        rw [← h2]
        exact hres _ _ _ _ hr
      | some sub =>
        exact (hres _ _ _ _ hr).comp (ih _ _ _ _ _ h)

theorem getItemPrice_inv (env : Env) :
    ∀ (fuel : ℕ) (item : String) (vis : List String) (st : St) out,
      getItemPrice env fuel item vis st = some out →
      StoreInv env vis st out.2.1 out.2.2 := by
  intro fuel
  induction fuel with
  | zero => intro item vis st out h; exact absurd h (by simp [getItemPrice])
  | succ fuel ih =>
    intro item vis st out h
    simp only [getItemPrice] at h
    by_cases hemp : item = ""
    · rw [if_pos hemp] at h
      injection h with h2
      rw [← h2]
      exact StoreInv.refl env vis st
    · rw [if_neg hemp] at h
      by_cases hvis : jsToUpper item ∈ vis
      · rw [if_pos hvis] at h
        injection h with h2
        rw [← h2]
        exact StoreInv.refl env vis st
      · rw [if_neg hvis] at h
        have hsub : vis ⊆ jsToUpper item :: vis := fun k hk => List.mem_cons_of_mem _ hk
        have hne : ∀ k ∈ vis, ¬ jsToUpper item = k := by
          intro k hk he
          exact hvis (he ▸ hk)
        cases hc : cachedFresh env st (jsToUpper item) with
        | some info =>
          rw [hc] at h
          injection h with h2
          rw [← h2]
          exact ⟨rfl, hsub, fun k _ => rfl, Finset.Subset.refl _⟩
        | none =>
          rw [hc] at h
          cases hb : bzBuy env (jsToUpper item) with
          | some buy =>
            rw [hb] at h
            injection h with h2
            rw [← h2]
            exact ⟨rfl, hsub, fun k hk => aget_aput_ne _ _ (hne k hk),
              Finset.Subset.refl _⟩
          | none =>
            rw [hb] at h
            cases hl : lbinCacheFresh env st (jsToUpper item) with
            | some q =>
              rw [hl] at h
              injection h with h2
              rw [← h2]
              exact ⟨rfl, hsub, fun k hk => aget_aput_ne _ _ (hne k hk),
                Finset.Subset.refl _⟩
            | none =>
              rw [hl] at h
              cases hf : fetchLBIN env (jsToUpper item) st with
              | mk fres fst' =>
                rw [hf] at h
                cases fres with
                | some m =>
                  injection h with h2
                  rw [← h2]
                  refine ⟨?_, hsub, fun k hk => ?_, ?_⟩
                  · have := fetchLBIN_margins env (jsToUpper item) st
                    rw [hf] at this
                    exact this
                  · have := fetchLBIN_prices_ne env (jsToUpper item) k st (hne k hk)
                    rw [hf] at this
                    exact this
                  · have h3 := fetchLBIN_recipes env (jsToUpper item) st
                    rw [hf] at h3
                    unfold recipeKeysU
                    rw [h3]
                | none =>
                  have hfst : fst' = st := fetchLBIN_none_state env _ st hf
                  subst fst'
                  simp only [] at h
                  cases hg : getRecipeCached env (jsToUpper item) st with
                  | mk gres st₂ =>
                    rw [hg] at h
                    have hm₂ : st₂.margins = st.margins := by
                      have := getRecipeCached_margins env (jsToUpper item) st
                      rw [hg] at this
                      exact this
                    have hp₂ : st₂.prices = st.prices := by
                      have := getRecipeCached_prices env (jsToUpper item) st
                      rw [hg] at this
                      exact this
                    have hku₂ : recipeKeysU env st₂ ⊆ recipeKeysU env st := by
                      have := getRecipeCached_keys_sub env (jsToUpper item) st
                      rw [hg] at this
                      exact this
                    have hinv₂ : StoreInv env vis st st₂ (jsToUpper item :: vis) :=
                      ⟨hm₂, hsub, fun k _ => by rw [hp₂], hku₂⟩
                    have heasy : ∀ visE stE, StoreInv env vis st stE visE →
                        easyFallback env (jsToUpper item) visE stE = some out →
                        StoreInv env vis st out.2.1 out.2.2 := by
                      intro visE stE hE hout
                      refine ⟨(easyFallback_margins env _ visE stE hout).trans hE.1,
                        ?_, fun k hk => ?_, ?_⟩
                      · rw [easyFallback_visited env _ visE stE hout]
                        exact hE.2.1
                      · exact (easyFallback_prices_ne env _ k visE stE (hne k hk) _
                          hout).trans (hE.2.2.1 k hk)
                      · have h3 := easyFallback_recipes env _ visE stE _ hout
                        unfold recipeKeysU
                        rw [h3]
                        exact hE.2.2.2
                    cases gres with
                    | none => exact heasy _ _ hinv₂ h
                    | some recipe =>
                      simp only [] at h
                      by_cases ht : jsTruthy recipe = true
                      · rw [if_pos ht] at h
                        by_cases hie : (parseRecipeSlots recipe).ingredients.isEmpty
                        · rw [if_pos hie] at h
                          exact heasy _ _ hinv₂ h
                        · rw [if_neg hie] at h
                          cases hpi : priceIngredients
                              (fun n v s => getItemPrice env fuel n v s)
                              (parseRecipeSlots recipe).ingredients 0 0
                              (jsToUpper item :: vis) st₂ with
                          | none => rw [hpi] at h; exact absurd h (by simp)
                          | some pres =>
                            rw [hpi] at h
                            rcases pres with ⟨pr, st₃, vis₃⟩
                            have hinv₃ : StoreInv env (jsToUpper item :: vis) st₂ st₃ vis₃ :=
                              priceIngredients_inv env _
                                (fun n v s o hh => ih n v s o hh) _ _ _ _ _ _ hpi
                            cases pr with
                            | none => exact heasy vis₃ st₃ (hinv₂.comp hinv₃) h
                            | some tm =>
                              rcases tm with ⟨total, maxLayer⟩
                              injection h with h2
                              rw [← h2]
                              have hcomp := hinv₂.comp hinv₃
                              refine ⟨hcomp.1, fun k hk => hcomp.2.1 hk,
                                fun k hk => ?_, hcomp.2.2.2⟩
                              exact (aget_aput_ne _ _ (hne k hk)).trans (hcomp.2.2.1 k hk)
                      · rw [if_neg ht] at h
                        exact heasy _ _ hinv₂ h

/-- If every call of the resolver on a state/visited pair whose unresolved
recipe-key count is at most `B` is defined (not out of fuel), and the
resolver satisfies the store invariant, then the ingredient loop started at
such a pair is defined. -/
theorem priceIngredients_isSome (env : Env) (B : ℕ)
    (resolve : String → List String → St →
      Option (Option PriceInfo × St × List String))
    (hres : ∀ n v s out, resolve n v s = some out → StoreInv env v s out.2.1 out.2.2)
    (hsome : ∀ n v s, (recipeKeysU env s \ v.toFinset).card ≤ B →
      (resolve n v s).isSome) :
    ∀ ings tot ml vis st, (recipeKeysU env st \ vis.toFinset).card ≤ B →
      (priceIngredients resolve ings tot ml vis st).isSome := by
  intro ings
  induction ings with
  | nil =>
    intro tot ml vis st hB
    unfold priceIngredients
    rfl
  | cons ing rest ih =>
    intro tot ml vis st hB
    unfold priceIngredients
    cases hr : resolve (jsToUpper ing.item) vis st with
    | none =>
      have := hsome (jsToUpper ing.item) vis st hB
      rw [hr] at this
      exact absurd this (by decide)
    | some out =>
      obtain ⟨r, s', v'⟩ := out
      have hst := hres _ _ _ _ hr
      cases r with
      | none => rfl
      | some sub =>
        refine ih _ _ v' s' (le_trans (Finset.card_le_card ?_) hB)
        refine Finset.sdiff_subset_sdiff hst.2.2.2 ?_
        intro x hx
        exact List.mem_toFinset.mpr (hst.2.1 (List.mem_toFinset.mp hx))

/-- With more fuel than the number of recipe keys (in the store or the
provider) not already on the visited path, `getItemPrice` never runs out of
fuel: it returns a definite answer (a price or `null`). -/
theorem getItemPrice_terminates (env : Env) :
    ∀ fuel item vis st, (recipeKeysU env st \ vis.toFinset).card < fuel →
      (getItemPrice env fuel item vis st).isSome := by
  intro fuel
  induction fuel with
  | zero =>
    intro item vis st h
    exact absurd h (Nat.not_lt_zero _)
  | succ fuel ih =>
    intro item vis st hB
    unfold getItemPrice
    by_cases hemp : item = ""
    · rw [if_pos hemp]
      rfl
    · rw [if_neg hemp]
      simp only []
      by_cases hv : jsToUpper item ∈ vis
      · rw [if_pos hv]
        rfl
      · rw [if_neg hv]
        cases hc : cachedFresh env st (jsToUpper item) with
        | some info => rfl
        | none =>
          cases hbz : bzBuy env (jsToUpper item) with
          | some buy => rfl
          | none =>
            cases hlc : lbinCacheFresh env st (jsToUpper item) with
            | some q => rfl
            | none =>
              cases hf : fetchLBIN env (jsToUpper item) st with
              | mk fres st' =>
                cases fres with
                | some m => rfl
                | none =>
                  simp only []
                  have hkeys' : recipeKeysU env st' = recipeKeysU env st := by
                    have h3 := fetchLBIN_recipes env (jsToUpper item) st
                    rw [hf] at h3
                    unfold recipeKeysU
                    rw [h3]
                  cases hg : getRecipeCached env (jsToUpper item) st' with
                  | mk gres st₂ =>
                    cases gres with
                    | none =>
                      exact easyFallback_isSome env (jsToUpper item)
                        (jsToUpper item :: vis) st₂
                    | some recipe =>
                      simp only []
                      by_cases ht : jsTruthy recipe = true
                      · rw [if_pos ht]
                        by_cases hie : (parseRecipeSlots recipe).ingredients.isEmpty = true
                        · rw [if_pos hie]
                          exact easyFallback_isSome env (jsToUpper item)
                            (jsToUpper item :: vis) st₂
                        · rw [if_neg hie]
                          have hmem : jsToUpper item ∈ recipeKeysU env st := by
                            rw [← hkeys']
                            exact getRecipeCached_some_mem env (jsToUpper item) st' hg
                          have hsub₂ : recipeKeysU env st₂ ⊆ recipeKeysU env st := by
                            have hs := getRecipeCached_keys_sub env (jsToUpper item) st'
                            rw [hg] at hs
                            rw [hkeys'] at hs
                            exact hs
                          have hm0 : jsToUpper item ∈ recipeKeysU env st \ vis.toFinset :=
                            Finset.mem_sdiff.mpr
                              ⟨hmem, fun hvv => hv (List.mem_toFinset.mp hvv)⟩
                          have hB' : (recipeKeysU env st₂ \
                              (jsToUpper item :: vis).toFinset).card < fuel := by
                            have hss : recipeKeysU env st₂ \
                                (jsToUpper item :: vis).toFinset ⊆
                                (recipeKeysU env st \ vis.toFinset).erase
                                  (jsToUpper item) := by
                              intro x hx
                              rw [Finset.mem_sdiff] at hx
                              have hxn := hx.2
                              simp only [List.toFinset_cons, Finset.mem_insert,
                                not_or] at hxn
                              rw [Finset.mem_erase, Finset.mem_sdiff]
                              exact ⟨hxn.1, hsub₂ hx.1, fun hxv => hxn.2 hxv⟩
                            have h1 := Finset.card_le_card hss
                            rw [Finset.card_erase_of_mem hm0] at h1
                            have h2 : 1 ≤ (recipeKeysU env st \ vis.toFinset).card :=
                              Finset.card_pos.mpr ⟨_, hm0⟩
                            omega
                          have hpi := priceIngredients_isSome env
                            ((recipeKeysU env st₂ \
                              (jsToUpper item :: vis).toFinset).card)
                            (fun n v s => getItemPrice env fuel n v s)
                            (fun n v s o hh => getItemPrice_inv env fuel n v s o hh)
                            (fun n v s hle => ih n v s (lt_of_le_of_lt hle hB'))
                            (parseRecipeSlots recipe).ingredients 0 0
                            (jsToUpper item :: vis) st₂ (le_refl _)
                          cases hp : priceIngredients
                              (fun n v s => getItemPrice env fuel n v s)
                              (parseRecipeSlots recipe).ingredients 0 0
                              (jsToUpper item :: vis) st₂ with
                          | none =>
                            rw [hp] at hpi
                            exact absurd hpi (by decide)
                          | some out =>
                            obtain ⟨r, st₃, vis₃⟩ := out
                            cases r with
                            | none =>
                              exact easyFallback_isSome env (jsToUpper item) vis₃ st₃
                            | some p => rfl
                      · rw [if_neg ht]
                        exact easyFallback_isSome env (jsToUpper item)
                          (jsToUpper item :: vis) st₂

theorem priceIngredients_mono
    (resolve resolve' : String → List String → St →
      Option (Option PriceInfo × St × List String))
    (hres : ∀ n v s out, resolve n v s = some out → resolve' n v s = some out) :
    ∀ ings tot ml vis st out,
      priceIngredients resolve ings tot ml vis st = some out →
      priceIngredients resolve' ings tot ml vis st = some out := by
  intro ings
  induction ings with
  | nil => intro tot ml vis st out h; exact h
  | cons ing rest ih =>
    intro tot ml vis st out h
    unfold priceIngredients at h ⊢
    cases hr : resolve (jsToUpper ing.item) vis st with
    | none => rw [hr] at h; exact absurd h (by simp)
    | some r1 =>
      rw [hr] at h
      rw [hres _ _ _ _ hr]
      rcases r1 with ⟨r, st', vis'⟩
      cases r with
      | none => exact h
      | some sub => exact ih _ _ _ _ _ h

theorem getItemPrice_fuel_mono (env : Env) :
    ∀ (fuel fuel' : ℕ), fuel ≤ fuel' →
      ∀ item vis st out, getItemPrice env fuel item vis st = some out →
        getItemPrice env fuel' item vis st = some out := by
  intro fuel
  induction fuel with
  | zero => intro fuel' _ item vis st out h; exact absurd h (by simp [getItemPrice])
  | succ fuel ih =>
    intro fuel' hle item vis st out h
    cases fuel' with
    | zero => omega
    | succ m =>
      have hm : fuel ≤ m := Nat.le_of_succ_le_succ hle
      simp only [getItemPrice] at h ⊢
      by_cases hemp : item = ""
      · rw [if_pos hemp] at h ⊢; exact h
      · rw [if_neg hemp] at h ⊢
        by_cases hvis : jsToUpper item ∈ vis
        · rw [if_pos hvis] at h ⊢; exact h
        · rw [if_neg hvis] at h ⊢
          cases hc : cachedFresh env st (jsToUpper item) with
          | some info => rw [hc] at h; exact h
          | none =>
            rw [hc] at h
            cases hb : bzBuy env (jsToUpper item) with
            | some buy => rw [hb] at h; exact h
            | none =>
              rw [hb] at h
              cases hl : lbinCacheFresh env st (jsToUpper item) with
              | some q => rw [hl] at h; exact h
              | none =>
                rw [hl] at h
                cases hf : fetchLBIN env (jsToUpper item) st with
                | mk fres fst' =>
                  rw [hf] at h
                  cases fres with
                  | some mm => exact h
                  | none =>
                    simp only [] at h ⊢
                    cases hg : getRecipeCached env (jsToUpper item) fst' with
                    | mk gres st₂ =>
                      rw [hg] at h
                      cases gres with
                      | none => exact h
                      | some recipe =>
                        simp only [] at h ⊢
                        by_cases ht : jsTruthy recipe = true
                        · rw [if_pos ht] at h ⊢
                          by_cases hie : (parseRecipeSlots recipe).ingredients.isEmpty
                          · rw [if_pos hie] at h ⊢; exact h
                          · rw [if_neg hie] at h ⊢
                            cases hpi : priceIngredients
                                (fun n v s => getItemPrice env fuel n v s)
                                (parseRecipeSlots recipe).ingredients 0 0
                                (jsToUpper item :: vis) st₂ with
                            | none => rw [hpi] at h; exact absurd h (by simp)
                            | some pres =>
                              rw [hpi] at h
                              have hpi' := priceIngredients_mono _ _
                                (fun n v s o hh => ih m hm n v s o hh) _ _ _ _ _ _ hpi
                              rw [hpi']
                              exact h
                        · rw [if_neg ht] at h ⊢; exact h

/-! ## Traces of the two ingredient loops -/

theorem priceIngredients_trace
    (resolve : String → List String → St →
      Option (Option PriceInfo × St × List String)) :
    ∀ ings tot ml vis st tot' ml' st' vis',
      priceIngredients resolve ings tot ml vis st =
        some (some (tot', ml'), st', vis') →
      ∃ subs : List PriceInfo,
        List.Forall₂ (fun (ing : Ingredient) (sub : PriceInfo) =>
          ∃ v s s₂ v₂, resolve (jsToUpper ing.item) v s = some (some sub, s₂, v₂))
          ings subs ∧
        tot' = tot + ((ings.zip subs).map
          (fun p => (p.2.price : ℚ) * effCount p.1.count)).sum ∧
        ml' = subs.foldl (fun m s => max m (s.layers + 1)) ml := by
  intro ings
  induction ings with
  | nil =>
    intro tot ml vis st tot' ml' st' vis' h
    unfold priceIngredients at h
    simp only [Option.some.injEq, Prod.mk.injEq] at h
    obtain ⟨⟨h1, h2⟩, _, _⟩ := h
    exact ⟨[], List.Forall₂.nil, by simp [← h1], by simp [← h2]⟩
  | cons ing rest ih =>
    intro tot ml vis st tot' ml' st' vis' h
    unfold priceIngredients at h
    cases hr : resolve (jsToUpper ing.item) vis st with
    | none => rw [hr] at h; exact absurd h (by simp)
    | some r1 =>
      rw [hr] at h
      rcases r1 with ⟨r, st₁, vis₁⟩
      cases r with
      | none => exact absurd h (by simp)
      | some sub =>
        obtain ⟨subs, hall, htot, hml⟩ := ih _ _ _ _ _ _ _ _ h
        refine ⟨sub :: subs, List.Forall₂.cons ⟨vis, st, st₁, vis₁, hr⟩ hall, ?_, ?_⟩
        · rw [htot]
          simp only [List.zip_cons_cons, List.map_cons, List.sum_cons]
          ring
        · rw [hml]
          rfl

theorem marginIngredients_margins
    (resolve : String → List String → St →
      Option (Option PriceInfo × St × List String))
    (hres : ∀ n v s out, resolve n v s = some out → out.2.1.margins = s.margins) :
    ∀ ings tot bd ml st out,
      marginIngredients resolve ings tot bd ml st = some out →
      out.2.margins = st.margins := by
  intro ings
  induction ings with
  | nil =>
    intro tot bd ml st out h
    unfold marginIngredients at h
    injection h with h2
    rw [← h2]
  | cons ing rest ih =>
    intro tot bd ml st out h
    unfold marginIngredients at h
    simp only [] at h
    cases hr : resolve (jsToUpper ing.item) [] st with
    | none => rw [hr] at h; exact absurd h (by simp)
    | some r1 =>
      rw [hr] at h
      rcases r1 with ⟨r, st₁, vis₁⟩
      cases r with
      | none =>
        injection h with h2
        rw [← h2]
        exact hres _ _ _ _ hr
      | some sub =>
        exact (ih _ _ _ _ _ h).trans (hres _ _ _ _ hr)

theorem marginIngredients_trace
    (resolve : String → List String → St →
      Option (Option PriceInfo × St × List String)) :
    ∀ ings tot bd ml st tot' bd' ml' st',
      marginIngredients resolve ings tot bd ml st =
        some (some (tot', bd', ml'), st') →
      ∃ newbd, bd' = bd ++ newbd ∧
        tot' = tot + (newbd.map (fun e => (e.unitPrice : ℚ) * e.count)).sum := by
  intro ings
  induction ings with
  | nil =>
    intro tot bd ml st tot' bd' ml' st' h
    unfold marginIngredients at h
    simp only [Option.some.injEq, Prod.mk.injEq] at h
    obtain ⟨⟨h1, h2, _⟩, _⟩ := h
    exact ⟨[], by simp [← h2], by simp [← h1]⟩
  | cons ing rest ih =>
    intro tot bd ml st tot' bd' ml' st' h
    unfold marginIngredients at h
    simp only [] at h
    cases hr : resolve (jsToUpper ing.item) [] st with
    | none => rw [hr] at h; exact absurd h (by simp)
    | some r1 =>
      rw [hr] at h
      rcases r1 with ⟨r, st₁, vis₁⟩
      cases r with
      | none => exact absurd h (by simp)
      | some sub =>
        obtain ⟨nb, hbd, htot⟩ := ih _ _ _ _ _ _ _ _ h
        refine ⟨⟨jsToUpper ing.item, effCount ing.count, jsRound (sub.price : ℚ),
          sub.source, sub.layers⟩ :: nb, ?_, ?_⟩
        · simp [hbd]
        · rw [htot]
          simp only [List.map_cons, List.sum_cons, jsRound_intCast]
          ring

/-- `foldl max (·+1)` over a nonempty list starting at 0 is `1 + foldl max`:
the loop's `maxLayer` really is one more than the deepest ingredient. -/
theorem foldl_max_succ (l : List ℕ) :
    ∀ a : ℕ, l.foldl (fun m x => max m (x + 1)) (a + 1) =
      (l.foldl max a) + 1 := by
  induction l with
  | nil => intro a; rfl
  | cons x rest ih =>
    intro a
    show rest.foldl (fun m x => max m (x + 1)) (max (a + 1) (x + 1)) =
      (rest.foldl max (max a x)) + 1
    rw [show (a + 1) ⊔ (x + 1) = (a ⊔ x) + 1 by omega]
    exact ih (max a x)

/-! ## Claim theorems -/

/-- Claim C1: for every item and visited set (the item nonempty and not yet
visited), `getItemPrice` tries its price sources strictly in this order,
returning on the first success: fresh persisted price within the TTL, bazaar
buy quote, unexpired in-memory auction-low cache, live auction-low fetch,
recursive craft cost, and finally the static fallback table, which persists
`source = easy` (the spec's "fallback") with `layers = 0`; when every source
fails the result is `null` and no default value is substituted. -/
theorem getItemPrice_source_order (env : Env) (fuel : ℕ) (item : String)
    (vis : List String) (st : St) (hemp : ¬ item = "")
    (hvis : ¬ jsToUpper item ∈ vis) :
    (∀ info, cachedFresh env st (jsToUpper item) = some info →
      getItemPrice env (fuel + 1) item vis st =
        some (some info, st, jsToUpper item :: vis)) ∧
    (cachedFresh env st (jsToUpper item) = none →
      ∀ buy, bzBuy env (jsToUpper item) = some buy →
      getItemPrice env (fuel + 1) item vis st =
        some (some ⟨jsRound buy, .bazaar, 0⟩,
          { st with prices := aput st.prices (jsToUpper item) ⟨jsRound buy, .bazaar, 0, env.now⟩ },
          jsToUpper item :: vis)) ∧
    (cachedFresh env st (jsToUpper item) = none →
      bzBuy env (jsToUpper item) = none →
      ∀ q, lbinCacheFresh env st (jsToUpper item) = some q →
      getItemPrice env (fuel + 1) item vis st =
        some (some ⟨jsRound q, .lbin, 0⟩,
          { st with prices := aput st.prices (jsToUpper item) ⟨jsRound q, .lbin, 0, env.now⟩ },
          jsToUpper item :: vis)) ∧
    (cachedFresh env st (jsToUpper item) = none →
      bzBuy env (jsToUpper item) = none →
      lbinCacheFresh env st (jsToUpper item) = none →
      ∀ m st', fetchLBIN env (jsToUpper item) st = (some m, st') →
      getItemPrice env (fuel + 1) item vis st =
        some (some ⟨jsRound m, .lbin, 0⟩, st', jsToUpper item :: vis)) ∧
    (cachedFresh env st (jsToUpper item) = none →
      bzBuy env (jsToUpper item) = none →
      lbinCacheFresh env st (jsToUpper item) = none →
      fetchLBIN env (jsToUpper item) st = (none, st) →
      ∀ recipe st₂, getRecipeCached env (jsToUpper item) st = (some recipe, st₂) →
      jsTruthy recipe = true →
      ¬ (parseRecipeSlots recipe).ingredients = [] →
      ∀ total maxLayer st₃ vis₃,
        priceIngredients (fun n v s => getItemPrice env fuel n v s)
          (parseRecipeSlots recipe).ingredients 0 0 (jsToUpper item :: vis) st₂ =
          some (some (total, maxLayer), st₃, vis₃) →
      getItemPrice env (fuel + 1) item vis st =
        some (some ⟨jsRound (total /
            ((if (parseRecipeSlots recipe).outputCount = 0 then 1
              else (parseRecipeSlots recipe).outputCount : ℤ) : ℚ)), .craft, maxLayer⟩,
          { st₃ with prices := aput st₃.prices (jsToUpper item) ⟨jsRound (total / ((if (parseRecipeSlots recipe).outputCount = 0 then 1 else (parseRecipeSlots recipe).outputCount : ℤ) : ℚ)), .craft, maxLayer, env.now⟩ },
          vis₃)) ∧
    (cachedFresh env st (jsToUpper item) = none →
      bzBuy env (jsToUpper item) = none →
      lbinCacheFresh env st (jsToUpper item) = none →
      fetchLBIN env (jsToUpper item) st = (none, st) →
      getRecipeCached env (jsToUpper item) st = (none, st) →
      getItemPrice env (fuel + 1) item vis st =
        easyFallback env (jsToUpper item) (jsToUpper item :: vis) st) ∧
    (∀ visE stE q, aget env.easyItems (jsToUpper item) = some q →
      easyFallback env (jsToUpper item) visE stE =
        some (some ⟨jsRound q, .easy, 0⟩,
          { stE with prices := aput stE.prices (jsToUpper item) ⟨jsRound q, .easy, 0, env.now⟩ },
          visE)) ∧
    (∀ visE stE, aget env.easyItems (jsToUpper item) = none →
      easyFallback env (jsToUpper item) visE stE = some (none, stE, visE)) := by
  refine ⟨?_, ?_, ?_, ?_, ?_, ?_, ?_, ?_⟩
  · intro info hc
    simp only [getItemPrice]
    rw [if_neg hemp, if_neg hvis, hc]
  · intro hc buy hb
    simp only [getItemPrice]
    rw [if_neg hemp, if_neg hvis, hc, hb]
  · intro hc hb q hl
    simp only [getItemPrice]
    rw [if_neg hemp, if_neg hvis, hc, hb, hl]
  · intro hc hb hl m st' hf
    simp only [getItemPrice]
    rw [if_neg hemp, if_neg hvis, hc, hb, hl, hf]
  · intro hc hb hl hf recipe st₂ hrec ht hne total maxLayer st₃ vis₃ hpi
    simp only [getItemPrice]
    rw [if_neg hemp, if_neg hvis, hc, hb, hl, hf]
    simp only []
    rw [hrec]
    simp only [ht, if_true]
    have hie : (parseRecipeSlots recipe).ingredients.isEmpty = false := by
      cases hi : (parseRecipeSlots recipe).ingredients with
      | nil => exact absurd hi hne
      | cons a l => rfl
    rw [hie]
    simp only [Bool.false_eq_true, if_false]
    rw [hpi]
  · intro hc hb hl hf hrec
    simp only [getItemPrice]
    rw [if_neg hemp, if_neg hvis, hc, hb, hl, hf]
    simp only []
    rw [hrec]
  · intro visE stE q he
    unfold easyFallback
    rw [he]
  · intro visE stE he
    unfold easyFallback
    rw [he]

/-- Witness for C1: in `envBz` the cache misses, the bazaar branch fires,
and it returns 10 with a persisted `bazaar`-sourced row. -/
theorem getItemPrice_source_order_witness :
    getItemPrice envBz 1 "A" [] St.empty =
      some (some ⟨10, .bazaar, 0⟩,
        ⟨[("A", ⟨10, .bazaar, 0, 100000⟩)], [], [], []⟩, ["A"]) := by
  have h := (getItemPrice_source_order envBz 0 "A" [] St.empty
    (by decide) (by simp)).2.1 (by with_unfolding_all rfl) 10 (by with_unfolding_all rfl)
  rw [h]
  with_unfolding_all rfl

/-- Claim C6: when a persisted price row for the item is within the TTL,
`getItemPrice` returns that row's `{price, source, layers}` verbatim, writes
nothing (the store comes back unchanged), and calls no provider: any
environment agreeing on the clock — bazaar snapshot, recipe, auction and
fallback tables arbitrary — produces the identical result. -/
theorem getItemPrice_fresh_cache_hit (env env' : Env) (fuel : ℕ) (item : String)
    (vis : List String) (st : St) (pr : PriceRow)
    (hemp : ¬ item = "") (hvis : ¬ jsToUpper item ∈ vis)
    (hrow : aget st.prices (jsToUpper item) = some pr)
    (httl : env.now - pr.updatedAt < PRICE_CACHE_TTL)
    (hnow : env'.now = env.now) :
    getItemPrice env (fuel + 1) item vis st =
      some (some ⟨pr.price, pr.source, pr.layers⟩, st, jsToUpper item :: vis) ∧
    getItemPrice env' (fuel + 1) item vis st =
      getItemPrice env (fuel + 1) item vis st := by
  have hc : cachedFresh env st (jsToUpper item) =
      some ⟨pr.price, pr.source, pr.layers⟩ := by
    unfold cachedFresh
    rw [hrow]
    simp only []
    rw [if_pos httl]
  have hc' : cachedFresh env' st (jsToUpper item) =
      some ⟨pr.price, pr.source, pr.layers⟩ := by
    unfold cachedFresh
    rw [hrow, hnow]
    simp only []
    rw [if_pos httl]
  have h1 : getItemPrice env (fuel + 1) item vis st =
      some (some ⟨pr.price, pr.source, pr.layers⟩, st, jsToUpper item :: vis) := by
    simp only [getItemPrice]
    rw [if_neg hemp, if_neg hvis, hc]
  have h2 : getItemPrice env' (fuel + 1) item vis st =
      some (some ⟨pr.price, pr.source, pr.layers⟩, st, jsToUpper item :: vis) := by
    simp only [getItemPrice]
    rw [if_neg hemp, if_neg hvis, hc']
  exact ⟨h1, h2.trans h1.symm⟩

/-- Witness for C6: the fresh row `(5, craft, 2)` is returned verbatim with
the store unchanged, and stripping every provider changes nothing. -/
theorem getItemPrice_fresh_cache_hit_witness :
    getItemPrice envBz 1 "A" [] stCachedA =
      some (some ⟨5, .craft, 2⟩, stCachedA, ["A"]) ∧
    getItemPrice envNoProv 1 "A" [] stCachedA =
      getItemPrice envBz 1 "A" [] stCachedA := by
  have h := getItemPrice_fresh_cache_hit envBz envNoProv 0 "A" [] stCachedA
    ⟨5, .craft, 2, 99999⟩ (by decide) (by simp) (by with_unfolding_all rfl)
    (by decide) rfl
  exact h

/-- Claim C2 counterexample: `A`'s recipe graph contains a cycle (A needs B
and B needs A, as the first four conjuncts exhibit), yet the top-level call
returns a crafted price of 7 — not absent — because `B` prices off the
bazaar before the cycle guard ever fires. -/
theorem cycle_returns_price_counterexample :
    aget envCycBz.recipeProv "A" = some (.obj [("A1", .str "B:1")]) ∧
    (parseRecipeSlots (.obj [("A1", .str "B:1")])).ingredients = [⟨"B", some 1⟩] ∧
    aget envCycBz.recipeProv "B" = some (.obj [("A1", .str "A:1")]) ∧
    (parseRecipeSlots (.obj [("A1", .str "A:1")])).ingredients = [⟨"A", some 1⟩] ∧
    (getItemPrice envCycBz 5 "A" [] St.empty).map (fun r => r.1) =
      some (some ⟨7, .craft, 1⟩) := by
  refine ⟨?_, ?_, ?_, ?_, ?_⟩ <;> with_unfolding_all rfl

/-- Claim C2 (amended): the cycle guard makes resolution terminate — an item
already in the shared visited set fails immediately with no state change;
a returned result never changes when fuel (the recursion budget) grows, so
no run needs unbounded recursion; in the pure two-cycle world, where no
source other than crafting can price `A` or `B`, the top-level call returns
absent at every recursion budget from 3 up; and in general any recursion
budget exceeding the number of recipe keys (stored or fetchable) off the
visited path yields a definite answer — the recursion is bounded, cycles
included. -/
theorem cycle_guard_terminates :
    (∀ (env : Env) (fuel : ℕ) (item : String) (vis : List String) (st : St),
      ¬ item = "" → jsToUpper item ∈ vis →
      getItemPrice env (fuel + 1) item vis st = some (none, st, vis)) ∧
    (∀ (env : Env) (fuel fuel' : ℕ) (item : String) (vis : List String) (st : St) out,
      fuel ≤ fuel' → getItemPrice env fuel item vis st = some out →
      getItemPrice env fuel' item vis st = some out) ∧
    (∀ k : ℕ, getItemPrice envCyc (3 + k) "A" [] St.empty =
      some (none,
        ⟨[], [("B", .obj [("A1", .str "A:1")]), ("A", .obj [("A1", .str "B:1")])],
          [], []⟩,
        ["B", "A"])) ∧
    (∀ (env : Env) (fuel : ℕ) (item : String) (vis : List String) (st : St),
      (recipeKeysU env st \ vis.toFinset).card < fuel →
      (getItemPrice env fuel item vis st).isSome) := by
  refine ⟨?_, ?_, ?_, ?_⟩
  · intro env fuel item vis st hemp hmem
    simp only [getItemPrice]
    rw [if_neg hemp, if_pos hmem]
  · intro env fuel fuel' item vis st out hle h
    exact getItemPrice_fuel_mono env fuel fuel' hle item vis st out h
  · have base : getItemPrice envCyc 3 "A" [] St.empty =
        some (none,
          ⟨[], [("B", .obj [("A1", .str "A:1")]), ("A", .obj [("A1", .str "B:1")])],
            [], []⟩,
          ["B", "A"]) := by
      with_unfolding_all rfl
    intro k
    exact getItemPrice_fuel_mono envCyc 3 (3 + k) (by omega) _ _ _ _ base
  · intro env fuel item vis st h
    exact getItemPrice_terminates env fuel item vis st h

/-- Witness for the amended C2: a revisited item (`A` with `A` already in
the visited set) fails immediately, leaving store and visited set alone. -/
theorem cycle_guard_terminates_witness :
    (¬ ("A" : String) = "") ∧
    getItemPrice envCyc 1 "A" ["A"] St.empty = some (none, St.empty, ["A"]) := by
  refine ⟨by decide, ?_⟩
  exact cycle_guard_terminates.1 envCyc 0 "A" ["A"] St.empty (by decide)
    (by with_unfolding_all decide)

/-- Claim C7 counterexample: the live auction-low fetch DOES persist to the
price store — after the live-fetch step prices `A`, the `prices` table holds
the rounded row `(42, lbin, 0)`, written inside `fetchLBIN` itself. -/
theorem live_lbin_fetch_persists_counterexample :
    getItemPrice envLive 1 "A" [] St.empty =
      some (some ⟨42, .lbin, 0⟩,
        ⟨[("A", ⟨42, .lbin, 0, 100000⟩)], [], [("A", ⟨42, 100000⟩)], []⟩, ["A"]) ∧
    aget (⟨[("A", ⟨42, .lbin, 0, 100000⟩)], [], [("A", ⟨42, 100000⟩)], []⟩ : St).prices
      "A" = some ⟨42, .lbin, 0, 100000⟩ := by
  refine ⟨?_, ?_⟩ <;> with_unfolding_all rfl

/-- Claim C7 (amended): on ≥ 1 valid listing the live auction-low step
returns `{source = lbin ('auctionLow'), layers = 0}` at the rounded minimum
of the listings' numeric price fields, and persists that minimum BOTH to the
in-memory `lbinCache` (unrounded) and to the `prices` store (rounded, inside
`fetchLBIN`); the cached auction-low step persists as well. -/
theorem auction_low_steps_behavior (env : Env) (fuel : ℕ) (item : String)
    (vis : List String) (st : St)
    (hemp : ¬ item = "") (hvis : ¬ jsToUpper item ∈ vis)
    (hc : cachedFresh env st (jsToUpper item) = none)
    (hb : bzBuy env (jsToUpper item) = none) :
    (∀ q, lbinCacheFresh env st (jsToUpper item) = some q →
      getItemPrice env (fuel + 1) item vis st =
        some (some ⟨jsRound q, .lbin, 0⟩,
          { st with prices := aput st.prices (jsToUpper item) ⟨jsRound q, .lbin, 0, env.now⟩ },
          jsToUpper item :: vis)) ∧
    (lbinCacheFresh env st (jsToUpper item) = none →
      ∀ arr m, aget env.auctionProv (jsToUpper item) = some arr →
      lbinMin arr = some m →
      getItemPrice env (fuel + 1) item vis st =
        some (some ⟨jsRound m, .lbin, 0⟩,
          { st with
            lbin := aput st.lbin (jsToUpper item) ⟨m, env.now⟩,
            prices := aput st.prices (jsToUpper item) ⟨jsRound m, .lbin, 0, env.now⟩ },
          jsToUpper item :: vis)) := by
  constructor
  · intro q hl
    simp only [getItemPrice]
    rw [if_neg hemp, if_neg hvis, hc, hb, hl]
  · intro hl arr m ha hmin
    have hf : fetchLBIN env (jsToUpper item) st =
        (some m,
          { st with
            lbin := aput st.lbin (jsToUpper item) ⟨m, env.now⟩,
            prices := aput st.prices (jsToUpper item) ⟨jsRound m, .lbin, 0, env.now⟩ }) := by
      unfold fetchLBIN
      rw [ha]
      simp only []
      cases arr with
      | nil => exact absurd hmin (by simp [lbinMin])
      | cons a l =>
        rw [List.isEmpty_cons]
        simp only [Bool.false_eq_true, if_false]
        rw [hmin]
    simp only [getItemPrice]
    rw [if_neg hemp, if_neg hvis, hc, hb, hl, hf]

/-- Witness for the amended C7: in `envLive` both hypotheses hold and the
state after resolving `A` carries the row in both stores. -/
theorem auction_low_steps_behavior_witness :
    getItemPrice envLive 1 "A" [] St.empty =
      some (some ⟨jsRound 42, .lbin, 0⟩,
        { St.empty with
          lbin := aput St.empty.lbin "A" ⟨42, 100000⟩,
          prices := aput St.empty.prices "A" ⟨jsRound 42, .lbin, 0, 100000⟩ },
        ["A"]) := by
  have h := (auction_low_steps_behavior envLive 0 "A" [] St.empty
    (by decide) (by simp) (by with_unfolding_all rfl) (by with_unfolding_all rfl)).2
    (by with_unfolding_all rfl) [⟨some (.num 42), none, none, none⟩] 42
    (by with_unfolding_all rfl) (by with_unfolding_all rfl)
  exact h

/-- Claim C3 counterexample: the parser yields the ingredient `Y` with
count 0, but the craft branch prices `X` at `round(10·1/1) = 10` because
`ing.count || 1` turns the 0 into 1 — whereas the claim's formula
`round(Σ unitPrice·count / outputCount)` gives `round(10·0/1) = 0 ≠ 10`. -/
theorem craft_zero_count_counterexample :
    (parseRecipeSlots (.obj [("A1", .str "Y:0")])).ingredients = [⟨"Y", some 0⟩] ∧
    (getItemPrice envZC 3 "X" [] St.empty).map (fun r => r.1) =
      some (some ⟨10, .craft, 1⟩) ∧
    jsRound (((10 : ℤ) : ℚ) * 0 / ((1 : ℤ) : ℚ)) = 0 ∧
    ¬ (10 : ℤ) = 0 :=
  ⟨by with_unfolding_all rfl, by with_unfolding_all rfl,
   by with_unfolding_all rfl, by decide⟩

/-- Claim C3 (amended): in the recursive-craft branch, an unpriceable
ingredient fails the whole branch — resolution falls through to the static
fallback and no row for the item itself has been written; on success the
persisted and returned unit price is `round(Σ subᵢ.price · count′ᵢ /
outputCount)` where `count′` is the parsed count with falsy values (0,
`NaN`, missing) replaced by 1 (`effCount`), `source = craft`, and the layers
equal `1 + max` over the resolved ingredients' layers; and every price
produced by the bazaar, auction-low or fallback branch (not replayed from
the cache) carries `layers = 0`. -/
theorem craft_branch_semantics (env : Env) (fuel : ℕ) (item : String)
    (vis : List String) (st : St)
    (hemp : ¬ item = "") (hvis : ¬ jsToUpper item ∈ vis) :
    (∀ recipe st₂ st₃ vis₃,
      cachedFresh env st (jsToUpper item) = none →
      bzBuy env (jsToUpper item) = none →
      lbinCacheFresh env st (jsToUpper item) = none →
      fetchLBIN env (jsToUpper item) st = (none, st) →
      getRecipeCached env (jsToUpper item) st = (some recipe, st₂) →
      jsTruthy recipe = true →
      ¬ (parseRecipeSlots recipe).ingredients = [] →
      priceIngredients (fun n v s => getItemPrice env fuel n v s)
        (parseRecipeSlots recipe).ingredients 0 0 (jsToUpper item :: vis) st₂ =
        some (none, st₃, vis₃) →
      getItemPrice env (fuel + 1) item vis st =
        easyFallback env (jsToUpper item) vis₃ st₃ ∧
      aget st₃.prices (jsToUpper item) = aget st.prices (jsToUpper item)) ∧
    (∀ recipe st₂ total maxLayer st₃ vis₃,
      cachedFresh env st (jsToUpper item) = none →
      bzBuy env (jsToUpper item) = none →
      lbinCacheFresh env st (jsToUpper item) = none →
      fetchLBIN env (jsToUpper item) st = (none, st) →
      getRecipeCached env (jsToUpper item) st = (some recipe, st₂) →
      jsTruthy recipe = true →
      ¬ (parseRecipeSlots recipe).ingredients = [] →
      priceIngredients (fun n v s => getItemPrice env fuel n v s)
        (parseRecipeSlots recipe).ingredients 0 0 (jsToUpper item :: vis) st₂ =
        some (some (total, maxLayer), st₃, vis₃) →
      getItemPrice env (fuel + 1) item vis st =
        some (some ⟨jsRound (total / ((if (parseRecipeSlots recipe).outputCount = 0 then 1 else (parseRecipeSlots recipe).outputCount : ℤ) : ℚ)), .craft, maxLayer⟩, { st₃ with prices := aput st₃.prices (jsToUpper item) ⟨jsRound (total / ((if (parseRecipeSlots recipe).outputCount = 0 then 1 else (parseRecipeSlots recipe).outputCount : ℤ) : ℚ)), .craft, maxLayer, env.now⟩ }, vis₃) ∧
      aget ({ st₃ with prices := aput st₃.prices (jsToUpper item) ⟨jsRound (total / ((if (parseRecipeSlots recipe).outputCount = 0 then 1 else (parseRecipeSlots recipe).outputCount : ℤ) : ℚ)), .craft, maxLayer, env.now⟩ } : St).prices (jsToUpper item) =
        some ⟨jsRound (total / ((if (parseRecipeSlots recipe).outputCount = 0 then 1 else (parseRecipeSlots recipe).outputCount : ℤ) : ℚ)), .craft, maxLayer, env.now⟩ ∧
      ∃ subs : List PriceInfo,
        List.Forall₂ (fun (ing : Ingredient) (sub : PriceInfo) =>
          ∃ v s s₂ v₂, getItemPrice env fuel (jsToUpper ing.item) v s =
            some (some sub, s₂, v₂)) (parseRecipeSlots recipe).ingredients subs ∧
        total = (((parseRecipeSlots recipe).ingredients.zip subs).map
          (fun p => (p.2.price : ℚ) * effCount p.1.count)).sum ∧
        maxLayer = ((subs.map (fun s => s.layers)).foldl max 0) + 1) ∧
    (cachedFresh env st (jsToUpper item) = none →
      ∀ out info, getItemPrice env (fuel + 1) item vis st = some out →
        out.1 = some info → ¬ info.source = .craft → info.layers = 0) := by
  refine ⟨?_, ?_, ?_⟩
  · intro recipe st₂ st₃ vis₃ hc hb hl hf hrec ht hne hpi
    constructor
    · simp only [getItemPrice]
      rw [if_neg hemp, if_neg hvis, hc, hb, hl, hf]
      simp only []
      rw [hrec]
      simp only [ht, if_true]
      have hie : (parseRecipeSlots recipe).ingredients.isEmpty = false := by
        cases hi : (parseRecipeSlots recipe).ingredients with
        | nil => exact absurd hi hne
        | cons a l => rfl
      rw [hie]
      simp only [Bool.false_eq_true, if_false]
      rw [hpi]
    · have hinv := priceIngredients_inv env _
        (fun n v s o hh => getItemPrice_inv env fuel n v s o hh) _ _ _ _ _ _ hpi
      have hname : aget st₃.prices (jsToUpper item) = aget st₂.prices (jsToUpper item) :=
        hinv.2.2.1 (jsToUpper item) (List.mem_cons_self _ _)
      have hp₂ : st₂.prices = st.prices := by
        have := getRecipeCached_prices env (jsToUpper item) st
        rw [hrec] at this
        exact this
      rw [hname, hp₂]
  · intro recipe st₂ total maxLayer st₃ vis₃ hc hb hl hf hrec ht hne hpi
    refine ⟨?_, aget_aput_self _ _ _, ?_⟩
    · simp only [getItemPrice]
      rw [if_neg hemp, if_neg hvis, hc, hb, hl, hf]
      simp only []
      rw [hrec]
      simp only [ht, if_true]
      have hie : (parseRecipeSlots recipe).ingredients.isEmpty = false := by
        cases hi : (parseRecipeSlots recipe).ingredients with
        | nil => exact absurd hi hne
        | cons a l => rfl
      rw [hie]
      simp only [Bool.false_eq_true, if_false]
      rw [hpi]
    · obtain ⟨subs, hall, htot, hml⟩ := priceIngredients_trace _ _ _ _ _ _ _ _ _ _ hpi
      refine ⟨subs, hall, by rw [htot]; ring, ?_⟩
      have hlen := List.Forall₂.length_eq hall
      cases hsub : subs with
      | nil =>
        rw [hsub] at hlen
        cases hi : (parseRecipeSlots recipe).ingredients with
        | nil => exact absurd hi hne
        | cons a l => rw [hi] at hlen; simp at hlen
      | cons c rest =>
        rw [hsub] at hml
        rw [hml]
        show (rest.foldl (fun m s => max m (s.layers + 1)) (max 0 (c.layers + 1))) =
          ((rest.map (fun s => s.layers)).foldl max (max 0 c.layers)) + 1
        rw [Nat.zero_max, Nat.zero_max, ← List.foldl_map (fun s : PriceInfo => s.layers)
          (fun m x => max m (x + 1)) rest (c.layers + 1)]
        exact foldl_max_succ (rest.map (fun s => s.layers)) c.layers
  · intro hc out info hout hinfo hsrc
    simp only [getItemPrice] at hout
    rw [if_neg hemp, if_neg hvis, hc] at hout
    have hfin : ∀ (p : ℤ) (s : Source) (l : ℕ) (stX : St) (visX : List String),
        some ((some ⟨p, s, l⟩ : Option PriceInfo), stX, visX) = some out → info = ⟨p, s, l⟩ := by
      intro p s l stX visX heq
      injection heq with h2
      rw [← h2] at hinfo
      injection hinfo with h3
      exact h3.symm
    have heasyCase : ∀ visE stE, easyFallback env (jsToUpper item) visE stE = some out →
        info.layers = 0 := by
      intro visE stE hE
      unfold easyFallback at hE
      cases he : aget env.easyItems (jsToUpper item) with
      | some q =>
        rw [he] at hE
        rw [hfin _ _ _ _ _ hE]
      | none =>
        rw [he] at hE
        injection hE with h2
        rw [← h2] at hinfo
        exact absurd hinfo (by simp)
    cases hb : bzBuy env (jsToUpper item) with
    | some buy =>
      rw [hb] at hout
      rw [hfin _ _ _ _ _ hout]
    | none =>
      rw [hb] at hout
      cases hl : lbinCacheFresh env st (jsToUpper item) with
      | some q =>
        rw [hl] at hout
        rw [hfin _ _ _ _ _ hout]
      | none =>
        rw [hl] at hout
        cases hf : fetchLBIN env (jsToUpper item) st with
        | mk fres fst' =>
          rw [hf] at hout
          cases fres with
          | some m =>
            rw [hfin _ _ _ _ _ hout]
          | none =>
            simp only [] at hout
            cases hg : getRecipeCached env (jsToUpper item) fst' with
            | mk gres st₂ =>
              rw [hg] at hout
              cases gres with
              | none => exact heasyCase _ _ hout
              | some recipe =>
                simp only [] at hout
                by_cases ht : jsTruthy recipe = true
                · rw [if_pos ht] at hout
                  by_cases hie : (parseRecipeSlots recipe).ingredients.isEmpty
                  · rw [if_pos hie] at hout
                    exact heasyCase _ _ hout
                  · rw [if_neg hie] at hout
                    cases hpi : priceIngredients
                        (fun n v s => getItemPrice env fuel n v s)
                        (parseRecipeSlots recipe).ingredients 0 0
                        (jsToUpper item :: vis) st₂ with
                    | none => rw [hpi] at hout; exact absurd hout (by simp)
                    | some pres =>
                      rw [hpi] at hout
                      rcases pres with ⟨pr, st₃, vis₃⟩
                      cases pr with
                      | none => exact heasyCase _ _ hout
                      | some tm =>
                        rcases tm with ⟨total, maxLayer⟩
                        have := hfin _ _ _ _ _ hout
                        rw [this] at hsrc
                        exact absurd rfl hsrc
                · rw [if_neg ht] at hout
                  exact heasyCase _ _ hout

/-- Witness for the amended C3: the example crafts at
`round((2·10 + 1·5)/1) = 25` with one craft layer, and the row persists. -/
theorem craft_branch_semantics_witness :
    getItemPrice envSpecEx 3 "ITEM" [] St.empty =
      some (some ⟨25, .craft, 1⟩,
        ⟨[("ITEM", ⟨25, .craft, 1, 100000⟩), ("STICK", ⟨5, .bazaar, 0, 100000⟩),
          ("COBBLESTONE", ⟨10, .bazaar, 0, 100000⟩)],
         [("ITEM", .obj [("A1", .str "COBBLESTONE:2"), ("B1", .str "STICK:1"),
           ("count", .str "1")])],
         [], []⟩,
        ["STICK", "COBBLESTONE", "ITEM"]) := by
  have h := ((craft_branch_semantics envSpecEx 2 "ITEM" [] St.empty
      (by decide) (by simp)).2.1
    (.obj [("A1", .str "COBBLESTONE:2"), ("B1", .str "STICK:1"), ("count", .str "1")])
    (⟨[], [("ITEM", .obj [("A1", .str "COBBLESTONE:2"), ("B1", .str "STICK:1"),
      ("count", .str "1")])], [], []⟩ : St)
    25 1
    (⟨[("STICK", ⟨5, .bazaar, 0, 100000⟩), ("COBBLESTONE", ⟨10, .bazaar, 0, 100000⟩)],
      [("ITEM", .obj [("A1", .str "COBBLESTONE:2"), ("B1", .str "STICK:1"),
        ("count", .str "1")])], [], []⟩ : St)
    ["STICK", "COBBLESTONE", "ITEM"]
    (by with_unfolding_all rfl) (by with_unfolding_all rfl)
    (by with_unfolding_all rfl) (by with_unfolding_all rfl)
    (by with_unfolding_all rfl) (by with_unfolding_all rfl)
    (by with_unfolding_all decide) (by with_unfolding_all rfl)).1
  rw [h]
  with_unfolding_all rfl

theorem jsRound_int_sub (a b : ℤ) : jsRound ((a : ℚ) - (b : ℚ)) = a - b := by
  rw [show ((a : ℚ) - (b : ℚ)) = ((a - b : ℤ) : ℚ) by push_cast; ring, jsRound_intCast]

/-- Claim C4: every margin record `computeMarginForItem` returns satisfies
`profit = sellPrice − costPerUnit` exactly (the rounding is the identity on
the integer difference), `marginPercent = round(profit/costPerUnit·100, 2)`
when `costPerUnit > 0` and 0 otherwise, and `costPerUnit = round(Σ
breakdown unitPrice·count / outputCount)` for the recipe's output count. -/
theorem margin_record_invariants (env : Env) (fuel : ℕ) (item : String)
    (st : St) (recipe : JSVal) (st₁ : St) (r : MarginResult) (stF : St)
    (hrec : getRecipeCached env item st = (some recipe, st₁))
    (h : computeMarginForItem env fuel item st = some (some r, stF)) :
    r.profit = r.sellPrice - r.costPerUnit ∧
    r.marginPercent = (if 0 < r.costPerUnit then
      toFixed2 ((r.profit : ℚ) / (r.costPerUnit : ℚ) * 100) else 0) ∧
    r.costPerUnit = jsRound ((r.breakdown.map (fun e => (e.unitPrice : ℚ) * e.count)).sum /
      ((if (parseRecipeSlots recipe).outputCount = 0 then 1
        else (parseRecipeSlots recipe).outputCount : ℤ) : ℚ)) := by
  unfold computeMarginForItem at h
  cases hbz : aget env.bazaar item with
  | none => rw [hbz] at h; exact absurd h (by simp)
  | some bz =>
    rw [hbz] at h
    simp only [] at h
    cases hsell : bz.sell with
    | none => rw [hsell] at h; exact absurd h (by simp)
    | some sellQ =>
      rw [hsell] at h
      simp only [] at h
      rw [hrec] at h
      simp only [] at h
      by_cases ht : jsTruthy recipe = false
      · rw [if_pos ht] at h
        exact absurd h (by simp)
      · rw [if_neg ht] at h
        by_cases hie : (parseRecipeSlots recipe).ingredients.isEmpty
        · rw [if_pos hie] at h
          exact absurd h (by simp)
        · rw [if_neg hie] at h
          cases hmi : marginIngredients (fun n v s => getItemPrice env fuel n v s)
              (parseRecipeSlots recipe).ingredients 0 [] 0 st₁ with
          | none => rw [hmi] at h; exact absurd h (by simp)
          | some mres =>
            rw [hmi] at h
            rcases mres with ⟨mr, st₂⟩
            cases mr with
            | none => exact absurd h (by simp)
            | some tbm =>
              rcases tbm with ⟨total, bd, ml⟩
              simp only [Option.some.injEq, Prod.mk.injEq] at h
              obtain ⟨hr, _⟩ := h
              obtain ⟨newbd, hbd, htot⟩ :=
                marginIngredients_trace _ _ _ _ _ _ _ _ _ _ hmi
              rw [← hr]
              have hsum : (bd.map (fun e => (e.unitPrice : ℚ) * e.count)).sum = total := by
                rw [hbd]
                simp only [List.nil_append]
                rw [htot]
                ring
              refine ⟨jsRound_int_sub _ _, rfl, ?_⟩
              simp only []
              rw [hsum]

/-- Witness for C4: the spec example (sell 100, cost 25 ⇒ profit 75,
marginPercent 300.00) satisfies all three invariants. -/
theorem margin_record_invariants_witness :
    rSpecEx.profit = rSpecEx.sellPrice - rSpecEx.costPerUnit ∧
    rSpecEx.marginPercent = (if 0 < rSpecEx.costPerUnit then
      toFixed2 ((rSpecEx.profit : ℚ) / (rSpecEx.costPerUnit : ℚ) * 100) else 0) ∧
    rSpecEx.costPerUnit = jsRound ((rSpecEx.breakdown.map
        (fun e => (e.unitPrice : ℚ) * e.count)).sum /
      ((if (parseRecipeSlots recipeSpecEx).outputCount = 0 then 1
        else (parseRecipeSlots recipeSpecEx).outputCount : ℤ) : ℚ)) :=
  margin_record_invariants envSpecEx 2 "ITEM" St.empty recipeSpecEx stSpecEx1
    rSpecEx stSpecExF (by with_unfolding_all rfl) (by with_unfolding_all rfl)

/-- Claim C5: `computeMarginForItem` is atomic on failure.  In each failure
mode — no bazaar sell quote, no recipe, a falsy recipe, a recipe with zero
parsed ingredients, or an unpriceable ingredient — it returns `null` and the
`craft_margins` table is exactly what it was, so any existing MarginRecord
is untouched; and the ingredient loop hands every ingredient resolution a
fresh empty visited set (`[]`), independent of any caller path. -/
theorem margin_failure_atomicity (env : Env) (fuel : ℕ) (item : String) (st : St) :
    (aget env.bazaar item = none →
      computeMarginForItem env fuel item st = some (none, st)) ∧
    (∀ bz, aget env.bazaar item = some bz → bz.sell = none →
      computeMarginForItem env fuel item st = some (none, st)) ∧
    (∀ bz sq st₁, aget env.bazaar item = some bz → bz.sell = some sq →
      getRecipeCached env item st = (none, st₁) →
      computeMarginForItem env fuel item st = some (none, st₁) ∧
      st₁.margins = st.margins) ∧
    (∀ bz sq recipe st₁, aget env.bazaar item = some bz → bz.sell = some sq →
      getRecipeCached env item st = (some recipe, st₁) →
      jsTruthy recipe = false →
      computeMarginForItem env fuel item st = some (none, st₁) ∧
      st₁.margins = st.margins) ∧
    (∀ bz sq recipe st₁, aget env.bazaar item = some bz → bz.sell = some sq →
      getRecipeCached env item st = (some recipe, st₁) →
      jsTruthy recipe = true → (parseRecipeSlots recipe).ingredients = [] →
      computeMarginForItem env fuel item st = some (none, st₁) ∧
      st₁.margins = st.margins) ∧
    (∀ bz sq recipe st₁ st₂, aget env.bazaar item = some bz → bz.sell = some sq →
      getRecipeCached env item st = (some recipe, st₁) →
      jsTruthy recipe = true → ¬ (parseRecipeSlots recipe).ingredients = [] →
      marginIngredients (fun n v s => getItemPrice env fuel n v s)
        (parseRecipeSlots recipe).ingredients 0 [] 0 st₁ = some (none, st₂) →
      computeMarginForItem env fuel item st = some (none, st₂) ∧
      st₂.margins = st.margins) ∧
    (∀ (resolve : String → List String → St →
        Option (Option PriceInfo × St × List String)) ing rest tot bd ml st',
      marginIngredients resolve (ing :: rest) tot bd ml st' =
        match resolve (jsToUpper ing.item) [] st' with
        | none => none
        | some (none, st'', _) => some (none, st'')
        | some (some sub, st'', _) =>
          marginIngredients resolve rest (tot + (sub.price : ℚ) * effCount ing.count)
            (bd ++ [⟨jsToUpper ing.item, effCount ing.count, jsRound (sub.price : ℚ),
              sub.source, sub.layers⟩])
            (max ml sub.layers) st'') := by
  have hmarg₁ : ∀ (st₁ : St) (res : Option JSVal),
      getRecipeCached env item st = (res, st₁) → st₁.margins = st.margins := by
    intro st₁ res hg
    have := getRecipeCached_margins env item st
    rw [hg] at this
    exact this
  refine ⟨?_, ?_, ?_, ?_, ?_, ?_, ?_⟩
  · intro hbz
    unfold computeMarginForItem
    rw [hbz]
  · intro bz hbz hsell
    unfold computeMarginForItem
    rw [hbz]
    simp only []
    rw [hsell]
  · intro bz sq st₁ hbz hsell hrec
    refine ⟨?_, hmarg₁ st₁ none hrec⟩
    unfold computeMarginForItem
    rw [hbz]
    simp only []
    rw [hsell]
    simp only []
    rw [hrec]
  · intro bz sq recipe st₁ hbz hsell hrec ht
    refine ⟨?_, hmarg₁ st₁ (some recipe) hrec⟩
    unfold computeMarginForItem
    rw [hbz]
    simp only []
    rw [hsell]
    simp only []
    rw [hrec]
    simp only []
    rw [if_pos ht]
  · intro bz sq recipe st₁ hbz hsell hrec ht hie
    refine ⟨?_, hmarg₁ st₁ (some recipe) hrec⟩
    unfold computeMarginForItem
    rw [hbz]
    simp only []
    rw [hsell]
    simp only []
    rw [hrec]
    simp only []
    rw [if_neg (by rw [ht]; decide)]
    rw [if_pos (by rw [hie]; rfl)]
  · intro bz sq recipe st₁ st₂ hbz hsell hrec ht hne hmi
    constructor
    · unfold computeMarginForItem
      rw [hbz]
      simp only []
      rw [hsell]
      simp only []
      rw [hrec]
      simp only []
      rw [if_neg (by rw [ht]; decide)]
      have hie : (parseRecipeSlots recipe).ingredients.isEmpty = false := by
        cases hi : (parseRecipeSlots recipe).ingredients with
        | nil => exact absurd hi hne
        | cons a l => rfl
      rw [hie]
      simp only [Bool.false_eq_true, if_false]
      rw [hmi]
    · have h2 : st₂.margins = st₁.margins := by
        have := marginIngredients_margins _
          (fun n v s o hh => (getItemPrice_inv env fuel n v s o hh).1) _ _ _ _ _ _ hmi
        exact this
      exact h2.trans (hmarg₁ st₁ (some recipe) hrec)
  · intro resolve ing rest tot bd ml st'
    rfl

/-- Witness for C5: with no bazaar entry for `A`, the computation returns
null and the store — margins included — is exactly the input store. -/
theorem margin_failure_atomicity_witness :
    aget envNoProv.bazaar "A" = none ∧
    computeMarginForItem envNoProv 1 "A" St.empty = some (none, St.empty) := by
  refine ⟨by with_unfolding_all rfl, ?_⟩
  exact (margin_failure_atomicity envNoProv 1 "A" St.empty).1 (by with_unfolding_all rfl)

/-- Claim C8 counterexample: in the structured-record fallback, a slot whose
first value is the string `"FOO:abc"` parses to count `NaN` (modelled
`none`), not to the claimed default of 1 — the fallback branch lacks the
`Number.isNaN` guard the direct string branch has. -/
theorem parse_fallback_nan_counterexample :
    parseRecipeSlots (.obj [("A1", .obj [("slot", .str "FOO:abc")])]) =
      ⟨[⟨"FOO", none⟩], 1⟩ ∧
    ¬ ((⟨"FOO", none⟩ : Ingredient)).count = some 1 :=
  ⟨by with_unfolding_all rfl, by decide⟩

/-- Claim C8 (amended): `parseRecipeSlots` considers only keys matching row
A–C / column 1–3, skips falsy and malformed slot values without aborting,
parses `"ITEM_ID:count"` strings with the count defaulting to 1 when missing
or non-numeric in the direct string branch — while the structured-record
fallback defaults only a missing count to 1 and turns a non-numeric one into
`NaN` — takes `outputCount` from a `count` field parsing to a positive
integer and otherwise 1 (so it is always ≥ 1), and is a pure function of its
input. -/
theorem parseRecipeSlots_spec :
    (∀ fields : List (String × JSVal),
      (parseRecipeSlots (.obj fields)).ingredients =
        (parseRecipeSlots (.obj (fields.filter (fun p => isSlotKey p.1)))).ingredients) ∧
    (∀ (fields : List (String × JSVal)) (k : String) (v : JSVal),
      isSlotKey k = true → slotIngredient v = none →
      (parseRecipeSlots (.obj ((k, v) :: fields))).ingredients =
        (parseRecipeSlots (.obj fields)).ingredients) ∧
    (∀ v : JSVal, jsTruthy v = false → slotIngredient v = none) ∧
    (slotIngredient (.str "FOO:2") = some ⟨"FOO", some 2⟩ ∧
     slotIngredient (.str "FOO") = some ⟨"FOO", some 1⟩ ∧
     slotIngredient (.str "FOO:xyz") = some ⟨"FOO", some 1⟩ ∧
     slotIngredient (.str "FOO:") = some ⟨"FOO", some 1⟩ ∧
     slotIngredient (.obj [("slot", .str "FOO:2")]) = some ⟨"FOO", some 2⟩ ∧
     slotIngredient (.obj [("item", .str "FOO"), ("count", .num 3)]) =
       some ⟨"FOO", some 3⟩) ∧
    (∀ fields : List (String × JSVal),
      1 ≤ (parseRecipeSlots (.obj fields)).outputCount) ∧
    ((parseRecipeSlots (.obj [("count", .str "4")])).outputCount = 4 ∧
     (parseRecipeSlots (.obj [("count", .str "0")])).outputCount = 1 ∧
     (parseRecipeSlots (.obj [("count", .str "-3")])).outputCount = 1 ∧
     (parseRecipeSlots (.obj [])).outputCount = 1) := by
  refine ⟨?_, ?_, ?_, ?_, ?_, ?_⟩
  · intro fields
    simp only [parseRecipeSlots]
    induction fields with
    | nil => rfl
    | cons p rest ih =>
      by_cases hk : isSlotKey p.1
      · simp only [List.filter_cons, hk, if_true, List.filterMap_cons, ih]
      · simp only [List.filter_cons, hk, Bool.false_eq_true, if_false,
          List.filterMap_cons, ih]
  · intro fields k v hk hv
    simp only [parseRecipeSlots, List.filterMap_cons, hk, if_true, hv]
  · intro v hv
    unfold slotIngredient
    rw [hv]
    simp
  · refine ⟨?_, ?_, ?_, ?_, ?_, ?_⟩ <;> with_unfolding_all rfl
  · intro fields
    simp only [parseRecipeSlots]
    unfold parseOutputCount
    cases hv : aget fields "count" with
    | none => decide
    | some v =>
      cases v with
      | null => decide
      | bool b => exact le_refl 1
      | obj l => exact le_refl 1
      | num q =>
        cases hpi : parseIntVal (.num q) with
        | none => simp [hpi]
        | some k =>
          simp only [hpi]
          by_cases h0 : 0 < k
          · rw [if_pos h0]; omega
          · rw [if_neg h0]
      | str s =>
        cases hpi : parseIntVal (.str s) with
        | none => simp [hpi]
        | some k =>
          simp only [hpi]
          by_cases h0 : 0 < k
          · rw [if_pos h0]; omega
          · rw [if_neg h0]
  · refine ⟨?_, ?_, ?_, ?_⟩ <;> with_unfolding_all rfl

/-- Witness for the amended C8: a truthy but malformed slot value (`.num 5`
under the valid grid key `A1`) is skipped without aborting the parse. -/
theorem parseRecipeSlots_spec_witness :
    isSlotKey "A1" = true ∧ slotIngredient (.num 5) = none ∧
    (parseRecipeSlots (.obj [("A1", .num 5), ("B1", .str "BAR:1")])).ingredients =
      (parseRecipeSlots (.obj [("B1", .str "BAR:1")])).ingredients := by
  refine ⟨by with_unfolding_all rfl, by with_unfolding_all rfl, ?_⟩
  exact parseRecipeSlots_spec.2.1 [("B1", .str "BAR:1")] "A1" (.num 5)
    (by with_unfolding_all rfl) (by with_unfolding_all rfl)

/-- Claim C9 counterexample: margin computation does NOT operate on the
canonical uppercase key — computing a margin for `"ab"` persists the
MarginRecord under `"ab"`, the canonical key `"AB"` has no row, and the
per-item query (which uppercases) then misses the freshly computed
margin. -/
theorem margin_verbatim_key_counterexample :
    computeMarginForItem envLower 2 "ab" St.empty = some (some rLower, stLowerF) ∧
    jsToUpper "ab" = "AB" ∧
    aget stLowerF.margins "ab" = some ⟨10, 100, 90, 900, 100000⟩ ∧
    aget stLowerF.margins "AB" = none ∧
    (itemPriceRoute stLowerF "ab").margin = none := by
  refine ⟨?_, ?_, ?_, ?_, ?_⟩ <;> with_unfolding_all rfl

/-- Claim C9 (amended): price resolution canonicalizes to uppercase —
`getItemPrice` gives identical results (state effects included) for an item
name and its uppercasing — and the per-item query uppercases its key; but
`computeMarginForItem` uses its argument verbatim for the bazaar lookup, the
recipe fetch and the persisted margin row key (only the ingredient
resolution canonicalizes), so margins for a non-uppercase name live under
the non-canonical key. -/
theorem case_insensitivity_behavior :
    (∀ (env : Env) (fuel : ℕ) (x : String) (vis : List String) (st : St),
      getItemPrice env fuel x vis st = getItemPrice env fuel (jsToUpper x) vis st) ∧
    (∀ (st : St) (x : String), itemPriceRoute st x = itemPriceRoute st (jsToUpper x)) ∧
    (∀ (env : Env) (fuel : ℕ) (item : String) (st : St) (r : MarginResult) (stF : St),
      computeMarginForItem env fuel item st = some (some r, stF) →
      aget stF.margins item =
        some ⟨r.costPerUnit, r.sellPrice, r.profit, r.marginPercent, env.now⟩ ∧
      r.item = item) := by
  refine ⟨?_, ?_, ?_⟩
  · intro env fuel x vis st
    cases fuel with
    | zero => rfl
    | succ n =>
      simp only [getItemPrice]
      by_cases hx : x = ""
      · subst hx
        rfl
      · have hx2 : ¬ jsToUpper x = "" := fun hc => hx ((jsToUpper_eq_empty_iff x).mp hc)
        rw [if_neg hx, if_neg hx2, jsToUpper_idem]
  · intro st x
    unfold itemPriceRoute
    rw [jsToUpper_idem]
  · intro env fuel item st r stF h
    unfold computeMarginForItem at h
    cases hbz : aget env.bazaar item with
    | none => rw [hbz] at h; exact absurd h (by simp)
    | some bz =>
      rw [hbz] at h
      simp only [] at h
      cases hsell : bz.sell with
      | none => rw [hsell] at h; exact absurd h (by simp)
      | some sellQ =>
        rw [hsell] at h
        simp only [] at h
        cases hg : getRecipeCached env item st with
        | mk gres st₁ =>
          rw [hg] at h
          cases gres with
          | none => exact absurd h (by simp)
          | some recipe =>
            simp only [] at h
            by_cases ht : jsTruthy recipe = false
            · rw [if_pos ht] at h
              exact absurd h (by simp)
            · rw [if_neg ht] at h
              by_cases hie : (parseRecipeSlots recipe).ingredients.isEmpty
              · rw [if_pos hie] at h
                exact absurd h (by simp)
              · rw [if_neg hie] at h
                cases hmi : marginIngredients (fun n v s => getItemPrice env fuel n v s)
                    (parseRecipeSlots recipe).ingredients 0 [] 0 st₁ with
                | none => rw [hmi] at h; exact absurd h (by simp)
                | some mres =>
                  rw [hmi] at h
                  rcases mres with ⟨mr, st₂⟩
                  cases mr with
                  | none => exact absurd h (by simp)
                  | some tbm =>
                    rcases tbm with ⟨total, bd, ml⟩
                    simp only [Option.some.injEq, Prod.mk.injEq] at h
                    obtain ⟨hr, hst⟩ := h
                    rw [← hr, ← hst]
                    exact ⟨aget_aput_self _ _ _, rfl⟩

/-- Witness for the amended C9: the lowercase-key margin computation in
`envLower` persists its row verbatim under `"ab"`. -/
theorem case_insensitivity_behavior_witness :
    aget stLowerF.margins "ab" =
      some ⟨rLower.costPerUnit, rLower.sellPrice, rLower.profit,
        rLower.marginPercent, 100000⟩ ∧
    rLower.item = "ab" := by
  exact case_insensitivity_behavior.2.2 envLower 2 "ab" St.empty rLower stLowerF
    (by with_unfolding_all rfl)

/-- Claim C10: `GET /item-price/:item` for an item the system has never seen
returns the uppercased name with `recipe`, `priceRow` and `margin` each
independently absent, and — being a total function of the store — cannot
throw for such an item. -/
theorem item_price_route_never_seen (st : St) (x : String)
    (h1 : aget st.recipes (jsToUpper x) = none)
    (h2 : aget st.prices (jsToUpper x) = none)
    (h3 : aget st.margins (jsToUpper x) = none) :
    itemPriceRoute st x = ⟨jsToUpper x, none, none, none⟩ := by
  unfold itemPriceRoute
  simp only []
  rw [h1, h2, h3]
  rfl

/-- Witness for C10: the route on the empty store and the never-seen item
`"foo"` answers `{item: "FOO", recipe: null, priceRow: null, margin:
null}`. -/
theorem item_price_route_never_seen_witness :
    itemPriceRoute St.empty "foo" = ⟨"FOO", none, none, none⟩ := by
  have h := item_price_route_never_seen St.empty "foo" rfl rfl rfl
  rw [h]
  rfl
